import Mathlib

/-!
Verification of the splay-tree engine of the `splay_tree` repository
(`src/include/tree_node.h`, `src/include/tree_impl.h`,
`src/include/splay_tree.h`, `src/include/implicit_splay_tree.h`).

The C++ engine is a pointer structure: every `tree_node<Value>` carries a
`value`, a stored `size` field (`uint64_t`), an owning `left`/`right`
child pointer (nullable) and a non-owning `parent` back pointer.  The
embedding below is the standard functional view of that structure:

* `STree V` is a nullable node pointer — `STree.nil` is `nullptr`, and
  `STree.node l v sz r` is a node whose `size` field holds `sz` and whose
  child pointers hold `l` and `r`.  Stored sizes are modelled as `Nat`:
  they are only ever built from `1`, sums of stored sizes of disjoint
  live nodes and subtractions of a subtree size from an enclosing stored
  size, so in any C++ execution they stay far below `2^64` and the
  `uint64_t` arithmetic never wraps.
* a node *location* (the C++ `tree_node*` into a tree) is a pair of a
  `NodeT V` (the fields of the pointed-to node) and a `List (Frame V)`
  context: the chain of `parent` pointers from the node to the root,
  innermost parent first.  `Frame.left pv psz pr` records a parent of
  which the located node is the `left` child (value `pv`, stored size
  `psz`, right child `pr`); `Frame.right pl pv psz` is the mirrored
  `right`-child case.  The parent back pointers of the C++ structure are
  exactly this context, so `is_left_child`/`is_right_child`/`is_root`
  become discriminations on the head of the context.
-/

namespace SplayVerify

/-- Nullable pointer to a `tree_node<Value>`: `nil` is `nullptr`,
`node l v sz r` a node with stored size field `sz`. -/
inductive STree (V : Type) where
  | nil : STree V
  | node (l : STree V) (v : V) (sz : Nat) (r : STree V) : STree V
deriving Repr, DecidableEq

/-- Expression `x != nullptr ? x->size : 0` — the stored size of a nullable node,
as read by `update_size`, `get_size_tree` and the order-statistic descent. -/
def ssz {V : Type} : STree V → Nat
  | .nil => 0
  | .node _ _ sz _ => sz

/-- Test `x == nullptr`. -/
def isNil {V : Type} : STree V → Bool
  | .nil => true
  | .node _ _ _ _ => false

/-- Actual number of nodes in a subtree (the specification-level notion of
subtree size, independent of the stored `size` fields). -/
def realSize {V : Type} : STree V → Nat
  | .nil => 0
  | .node l _ _ r => 1 + realSize l + realSize r

/-- In-order value sequence of a subtree. -/
def inorder {V : Type} : STree V → List V
  | .nil => []
  | .node l v _ r => inorder l ++ v :: inorder r

/-- Size-consistency invariant of §3 of the design: at every node the stored
`size` field equals `1 + size(left) + size(right)`. -/
def sizeOK {V : Type} : STree V → Bool
  | .nil => true
  | .node l _ sz r => sz == 1 + realSize l + realSize r && sizeOK l && sizeOK r

/-- Fields of one concrete (non-null) node. -/
structure NodeT (V : Type) where
  l : STree V
  v : V
  sz : Nat
  r : STree V
deriving Repr, DecidableEq

/-- View of a `NodeT` as the subtree hanging from it. -/
def NodeT.toTree {V : Type} (u : NodeT V) : STree V :=
  .node u.l u.v u.sz u.r

/-- One parent on the path from a located node to the root.  `left pv psz pr`:
the located node is the `left` child of a parent with value `pv`, stored size
`psz` and right child `pr`; `right pl pv psz` is the mirrored case. -/
inductive Frame (V : Type) where
  | left (pv : V) (psz : Nat) (pr : STree V) : Frame V
  | right (pl : STree V) (pv : V) (psz : Nat) : Frame V
deriving Repr, DecidableEq

/-- Test `node->is_left_child()` for a non-root node, read off its innermost
context frame. -/
def Frame.isLeftChild {V : Type} : Frame V → Bool
  | .left _ _ _ => true
  | .right _ _ _ => false

/-- Test `node->is_right_child()` for a non-root node. -/
def Frame.isRightChild {V : Type} : Frame V → Bool
  | .left _ _ _ => false
  | .right _ _ _ => true

/-- Reattach a located node below its innermost parent, producing that parent
as a located node. -/
def assemble {V : Type} (u : NodeT V) : Frame V → NodeT V
  | .left pv psz pr => ⟨u.toTree, pv, psz, pr⟩
  | .right pl pv psz => ⟨pl, pv, psz, u.toTree⟩

/-- Rebuild the whole tree a located node lives in (follow all parent
pointers to the root, reattaching along the way). -/
def plug {V : Type} (u : NodeT V) : List (Frame V) → STree V
  | [] => u.toTree
  | f :: rest => plug (assemble u f) rest

/-- Translation of `update_size` (`tree_impl.h:36`): recompute a node's stored
size field as `1` plus the stored sizes of its (nullable) children; a null
pointer is left alone. -/
def update_size {V : Type} : STree V → STree V
  | .nil => .nil
  | .node l v _ r => .node l v (1 + ssz l + ssz r) r

/-- Translation of `left_rotate_node` (`tree_impl.h:91`): the located node `u`
is its parent's left child (frame fields `pv`, `psz`, `pr`); `u` takes the
parent's place, the demoted parent receives `u`'s right branch as its left
child, and `update_size` runs on the demoted parent first, then on `u`.
The rotated node's context shrinks by the consumed frame. -/
def left_rotate_node {V : Type} (u : NodeT V) (pv : V) (psz : Nat) (pr : STree V) : NodeT V :=
  let a := update_size (STree.node u.r pv psz pr)
  ⟨u.l, u.v, 1 + ssz u.l + ssz a, a⟩

/-- Translation of `right_rotate_node` (`tree_impl.h:130`), mirror image of
`left_rotate_node`: `u` is its parent's right child. -/
def right_rotate_node {V : Type} (u : NodeT V) (pl : STree V) (pv : V) (psz : Nat) : NodeT V :=
  let a := update_size (STree.node pl pv psz u.l)
  ⟨a, u.v, 1 + ssz a + ssz u.r, u.r⟩

/-- Translation of `rotate_node` (`tree_impl.h:167`): dispatch on the node's
orientation.  The source asserts the node has a parent, so the dispatch takes
the innermost context frame. -/
def rotate_node {V : Type} (u : NodeT V) : Frame V → NodeT V
  | .left pv psz pr => left_rotate_node u pv psz pr
  | .right pl pv psz => right_rotate_node u pl pv psz

/-- Effect, on the located node's innermost frame, of rotating its parent
(the same-side "zig-zig"/"zag-zag" step of `splay_node`): the parent is the
`usz`-sized node's parent (first frame) and is itself a same-side child of the
grandparent (second frame).  After the parent's rotation the located node is
still the same-side child of its parent, whose other branch is now the rebuilt
grandparent.  Sizes follow the source's `update_size` order (grandparent
first, then parent); opposite-side frame pairs never reach this helper. -/
def rotate_parent_frame {V : Type} (usz : Nat) : Frame V → Frame V → Frame V
  | .left av _ c, .left bv bsz d =>
    let b1 := update_size (STree.node c bv bsz d)
    .left av (1 + usz + ssz b1) b1
  | .right c av _, .right d bv bsz =>
    let b1 := update_size (STree.node d bv bsz c)
    .right b1 av (1 + ssz b1 + usz)
  | f, _ => f

/-- Translation of `splay_node` (`tree_impl.h:180`): while the node has a
parent, (a) if the parent is the root, rotate the node once; (b) if node and
parent are opposite-side children ("zig-zag"/"zag-zig"), rotate the node
twice; (c) otherwise ("zig-zig"/"zag-zag") rotate the parent first, then the
node.  The loop ends when the context is exhausted, i.e. the node has become
the root. -/
def splay_node {V : Type} (u : NodeT V) : List (Frame V) → NodeT V
  | [] => u
  | [f] => rotate_node u f
  | f :: g :: rest =>
    if (f.isLeftChild && g.isRightChild) || (f.isRightChild && g.isLeftChild) then
      splay_node (rotate_node (rotate_node u f) g) rest
    else
      splay_node (rotate_node u (rotate_parent_frame u.sz f g)) rest

/-- Translation of `find_candidate_subtree` (`tree_impl.h:247`, duplicated as
`find_candidate` in `splay_tree.h:388`): binary-search descent for `key`; the
result is the last node visited — an exact match, or the node at which the
search would have stepped into a null child.  Null is returned only for an
empty subtree.  The accumulating `ctx` threads the parent chain of the current
subtree so that the result is a location; a recursive call that returns `none`
means the descent stepped into a null child, in which case the current node is
the last one visited. -/
def find_candidate_subtree {K V : Type} (cmp : K → K → Bool) (ext : V → K) (key : K) :
    STree V → List (Frame V) → Option (NodeT V × List (Frame V))
  | .nil, _ => none
  | .node l v sz r, ctx =>
    if cmp key (ext v) then
      match find_candidate_subtree cmp ext key l (.left v sz r :: ctx) with
      | none => some (⟨l, v, sz, r⟩, ctx)
      | some res => some res
    else if cmp (ext v) key then
      match find_candidate_subtree cmp ext key r (.right l v sz :: ctx) with
      | none => some (⟨l, v, sz, r⟩, ctx)
      | some res => some res
    else some (⟨l, v, sz, r⟩, ctx)

/-- Translation of `lower_bound_subtree` (`tree_impl.h:311`, duplicated as
`lower_bound` in `splay_tree.h:413`): descend, remembering as candidate every
node whose key is not less than `key` before stepping left, and stepping right
otherwise; the last remembered candidate is returned. -/
def lower_bound_subtree {K V : Type} (cmp : K → K → Bool) (ext : V → K) (key : K) :
    STree V → List (Frame V) → Option (NodeT V × List (Frame V)) →
    Option (NodeT V × List (Frame V))
  | .nil, _, best => best
  | .node l v sz r, ctx, best =>
    if cmp (ext v) key then
      lower_bound_subtree cmp ext key r (.right l v sz :: ctx) best
    else
      lower_bound_subtree cmp ext key l (.left v sz r :: ctx) (some (⟨l, v, sz, r⟩, ctx))

/-- Translation of `upper_bound_subtree` (`tree_impl.h:330`, duplicated as
`upper_bound` in `splay_tree.h:432`): like the lower bound but the candidate
test is `key < node`. -/
def upper_bound_subtree {K V : Type} (cmp : K → K → Bool) (ext : V → K) (key : K) :
    STree V → List (Frame V) → Option (NodeT V × List (Frame V)) →
    Option (NodeT V × List (Frame V))
  | .nil, _, best => best
  | .node l v sz r, ctx, best =>
    if cmp key (ext v) then
      upper_bound_subtree cmp ext key l (.left v sz r :: ctx) (some (⟨l, v, sz, r⟩, ctx))
    else
      upper_bound_subtree cmp ext key r (.right l v sz :: ctx) best

/-- Loop body of `order_statistic_subtree` (`tree_impl.h:283`): use the stored
size of the left child to decide the direction; on stepping right, subtract
`left_subtree_size + 1` from the index. -/
def order_statistic_go {V : Type} : STree V → Nat → List (Frame V) →
    Option (NodeT V × List (Frame V))
  | .nil, _, _ => none
  | .node l v sz r, n, ctx =>
    if n < ssz l then order_statistic_go l n (.left v sz r :: ctx)
    else if n = ssz l then some (⟨l, v, sz, r⟩, ctx)
    else order_statistic_go r (n - (ssz l + 1)) (.right l v sz :: ctx)

/-- Translation of `order_statistic_subtree` (`tree_impl.h:283`): an index at
least the root's stored size is rejected up front (null result, no descent);
an empty subtree yields null via the loop. -/
def order_statistic_subtree {V : Type} (t : STree V) (n : Nat) :
    Option (NodeT V × List (Frame V)) :=
  match t with
  | .nil => none
  | .node l v sz r =>
    if sz ≤ n then none else order_statistic_go (.node l v sz r) n []

/-- Translation of the descent loop of `insert_subtree` (`tree_impl.h:46`,
duplicated as `insert_node` in `splay_tree.h:187`): descend by key; at a null
child slot allocate the new leaf (size field `1`) there and return its
location; on meeting an equal key return null.  The subsequent ancestor size
increments are `insert_bump` below. -/
def insert_descent {K V : Type} (cmp : K → K → Bool) (ext : V → K) (value : V) :
    STree V → List (Frame V) → Option (NodeT V × List (Frame V))
  | .nil, _ => none
  | .node l v sz r, ctx =>
    if cmp (ext value) (ext v) then
      match l with
      | .nil => some (⟨.nil, value, 1, .nil⟩, .left v sz r :: ctx)
      | .node a b c d => insert_descent cmp ext value (.node a b c d) (.left v sz r :: ctx)
    else if cmp (ext v) (ext value) then
      match r with
      | .nil => some (⟨.nil, value, 1, .nil⟩, .right l v sz :: ctx)
      | .node a b c d => insert_descent cmp ext value (.node a b c d) (.right l v sz :: ctx)
    else none

/-- Size increment `parent->size += 1` applied to one ancestor. -/
def bump_frame {V : Type} : Frame V → Frame V
  | .left pv psz pr => .left pv (psz + 1) pr
  | .right pl pv psz => .right pl pv (psz + 1)

/-- Loop `while (parent != nullptr) parent->size += 1` of `insert_subtree`:
every strict ancestor of the attached leaf — exactly the context frames — gets
its stored size incremented. -/
def insert_bump {V : Type} (ctx : List (Frame V)) : List (Frame V) :=
  ctx.map bump_frame

/-- Translation of `insert_subtree` (`tree_impl.h:46`): descent plus ancestor
size increments on success. -/
def insert_subtree {K V : Type} (cmp : K → K → Bool) (ext : V → K) (value : V)
    (t : STree V) : Option (NodeT V × List (Frame V)) :=
  match insert_descent cmp ext value t [] with
  | none => none
  | some (u, ctx) => some (u, insert_bump ctx)

/-- Translation of `rightmost_node` (`tree_node.h:55`) as a location: follow
`right` pointers to the last node, accumulating the parent chain. -/
def rightmost_loc {V : Type} : STree V → List (Frame V) →
    Option (NodeT V × List (Frame V))
  | .nil, _ => none
  | .node l v sz .nil, ctx => some (⟨l, v, sz, .nil⟩, ctx)
  | .node l v sz (.node a b c d), ctx =>
    rightmost_loc (.node a b c d) (.right l v sz :: ctx)

/-- Translation of `merge_subtrees` (`tree_impl.h:369`, duplicated in
`splay_tree.h:472`): if either side is null return the other; otherwise splay
the rightmost node of `lhs` to its root (its right child is then null, as the
source asserts), attach `rhs` as its right child and add `rhs`'s stored size
into its size field. -/
def merge_subtrees {V : Type} (lhs rhs : STree V) : STree V :=
  match lhs, rhs with
  | .nil, _ => rhs
  | .node a b c d, .nil => STree.node a b c d
  | .node a b c d, .node e f g h =>
    match rightmost_loc (.node a b c d) [] with
    | none => STree.node e f g h
    | some (m0, ctx) =>
      let m := splay_node m0 ctx
      .node m.l m.v (m.sz + ssz (.node e f g h)) (.node e f g h)

/-- Translation of `split_left_subtree` (`tree_impl.h:391`): the parentless
root keeps its left branch and goes left; its right branch is detached as the
right tree, its size subtracted from the root's size field. -/
def split_left_subtree {V : Type} (u : NodeT V) : STree V × STree V :=
  (STree.node u.l u.v (u.sz - ssz u.r) .nil, u.r)

/-- Translation of `split_right_subtree` (`tree_impl.h:411`) and of
`split_root` (`splay_tree.h:495`, which is the same computation): the root's
left branch is detached as the left tree; the root keeps its right branch and
goes right, the detached size subtracted from its size field. -/
def split_right_subtree {V : Type} (u : NodeT V) : STree V × STree V :=
  (u.l, STree.node .nil u.v (u.sz - ssz u.l) u.r)

/-- Translation of `destroy_substree` (`tree_impl.h:24`, duplicated in
`splay_tree.h:165`): post-order deallocation of every node reachable from a
root; modelled as the list of deallocated values in deallocation order
(children before their parent).  The container field holding the pointer to
the destroyed subtree is not touched by this function. -/
def destroy_substree {V : Type} : STree V → List V
  | .nil => []
  | .node l v _ r => destroy_substree l ++ destroy_substree r ++ [v]

/-- Translation of `copy_subtree` (`tree_impl.h:348`, duplicated in
`splay_tree.h:450`): allocate a fresh node with the same value and stored
size, then copy both children recursively and set their parent pointers. -/
def copy_subtree {V : Type} : STree V → STree V
  | .nil => .nil
  | .node l v sz r => .node (copy_subtree l) v sz (copy_subtree r)

/-- Container of `tree_impl.h:429`: a (possibly null) owning root pointer. -/
structure splay_tree_base (V : Type) where
  root : STree V
deriving Repr, DecidableEq

/-- Translation of `create_tree()` (`tree_impl.h:434`): the empty tree. -/
def create_tree {V : Type} : splay_tree_base V :=
  ⟨.nil⟩

/-- Translation of `create_tree(value)` (`tree_impl.h:441`): a tree holding a
single fresh node. -/
def create_tree1 {V : Type} (value : V) : splay_tree_base V :=
  ⟨.node .nil value 1 .nil⟩

/-- Translation of `copy_tree` (`tree_impl.h:451`). -/
def copy_tree {V : Type} (other : splay_tree_base V) : splay_tree_base V :=
  ⟨copy_subtree other.root⟩

/-- Translation of `swap_trees` (`tree_impl.h:458`): exchange the two root
pointers; the result pair holds the updated `lhs` and `rhs`. -/
def swap_trees {V : Type} (lhs rhs : splay_tree_base V) :
    splay_tree_base V × splay_tree_base V :=
  (⟨rhs.root⟩, ⟨lhs.root⟩)

/-- Translation of `clear_tree` (`tree_impl.h:463`): destroy the subtree under
the root, then null the root pointer.  The pair also reports the deallocated
values, mirroring `destroy_substree`. -/
def clear_tree {V : Type} (tree : splay_tree_base V) : splay_tree_base V × List V :=
  (⟨.nil⟩, destroy_substree tree.root)

/-- Translation of `get_size_tree` (`tree_impl.h:470`): the root's stored size,
or `0` for a null root. -/
def get_size_tree {V : Type} (tree : splay_tree_base V) : Nat :=
  ssz tree.root

/-- Translation of `is_empty_tree` (`tree_impl.h:474`): `root == nullptr`. -/
def is_empty_tree {V : Type} (tree : splay_tree_base V) : Bool :=
  isNil tree.root

/-- Translation of `find_tree` (`tree_impl.h:489`) and, identically, of
`splay_tree::find` (`splay_tree.h:626`): locate the candidate; if the tree was
non-empty splay it to the root; return it only if its key is neither strictly
less nor strictly greater than `key`, otherwise report null — the splayed tree
is kept either way.  The result pair is (found node, updated tree). -/
def find_tree {K V : Type} (cmp : K → K → Bool) (ext : V → K)
    (tree : splay_tree_base V) (key : K) : Option (NodeT V) × splay_tree_base V :=
  match find_candidate_subtree cmp ext key tree.root [] with
  | none => (none, tree)
  | some (u, ctx) =>
    let m := splay_node u ctx
    if cmp (ext m.v) key || cmp key (ext m.v) then (none, ⟨m.toTree⟩)
    else (some m, ⟨m.toTree⟩)

/-- Translation of `lower_bound_tree` (`tree_impl.h:508`): find the bound and,
if present, splay it to the root. -/
def lower_bound_tree {K V : Type} (cmp : K → K → Bool) (ext : V → K)
    (tree : splay_tree_base V) (key : K) : Option (NodeT V) × splay_tree_base V :=
  match lower_bound_subtree cmp ext key tree.root [] none with
  | none => (none, tree)
  | some (u, ctx) =>
    let m := splay_node u ctx
    (some m, ⟨m.toTree⟩)

/-- Translation of `upper_bound_tree` (`tree_impl.h:522`). -/
def upper_bound_tree {K V : Type} (cmp : K → K → Bool) (ext : V → K)
    (tree : splay_tree_base V) (key : K) : Option (NodeT V) × splay_tree_base V :=
  match upper_bound_subtree cmp ext key tree.root [] none with
  | none => (none, tree)
  | some (u, ctx) =>
    let m := splay_node u ctx
    (some m, ⟨m.toTree⟩)

/-- Translation of `insert_tree` (`tree_impl.h:536`) and, identically, of
`splay_tree::insert` (`splay_tree.h:642`): an empty tree gets the new node as
its sole root; otherwise run the descent of `insert_subtree` and splay the
attached leaf to the root on success; a null result (key already present)
leaves the tree untouched. -/
def insert_tree {K V : Type} (cmp : K → K → Bool) (ext : V → K)
    (tree : splay_tree_base V) (value : V) : Option (NodeT V) × splay_tree_base V :=
  match tree.root with
  | .nil => (some ⟨.nil, value, 1, .nil⟩, ⟨.node .nil value 1 .nil⟩)
  | .node a b c d =>
    match insert_subtree cmp ext value (.node a b c d) with
    | none => (none, tree)
    | some (u, ctx) =>
      let m := splay_node u ctx
      (some m, ⟨m.toTree⟩)

/-- Translation of `erase_tree` (`tree_impl.h:559`) and, identically, of
`splay_tree::erase` (`splay_tree.h:662`): splay the node to the root, detach
both children (nulling their parent pointers), deallocate the node and merge
the detached subtrees into the new root.  The argument is the erased node's
location inside the tree. -/
def erase_tree {V : Type} (u : NodeT V) (ctx : List (Frame V)) : splay_tree_base V :=
  let m := splay_node u ctx
  ⟨merge_subtrees m.l m.r⟩

/-- Translation of `split_left_tree` (`tree_impl.h:581`): with a non-null node
argument (a location in the tree), splay it to the root and split so that the
root goes left; with a null node everything stays left.  The result pair is
(updated original tree, returned right tree). -/
def split_left_tree {V : Type} (tree : splay_tree_base V)
    (node : Option (NodeT V × List (Frame V))) :
    splay_tree_base V × splay_tree_base V :=
  match node with
  | some (u, ctx) =>
    let s := split_left_subtree (splay_node u ctx)
    (⟨s.1⟩, ⟨s.2⟩)
  | none => (⟨tree.root⟩, ⟨.nil⟩)

/-- Translation of `split_right_tree` (`tree_impl.h:603`): as `split_left_tree`
but the splayed node goes right; with a null node everything stays left. -/
def split_right_tree {V : Type} (tree : splay_tree_base V)
    (node : Option (NodeT V × List (Frame V))) :
    splay_tree_base V × splay_tree_base V :=
  match node with
  | some (u, ctx) =>
    let s := split_right_subtree (splay_node u ctx)
    (⟨s.1⟩, ⟨s.2⟩)
  | none => (⟨tree.root⟩, ⟨.nil⟩)

/-- Translation of `merge_trees` (`tree_impl.h:623`): merge the two roots into
`lhs` and null the donor's root.  The result pair is (updated lhs, updated
rhs). -/
def merge_trees {V : Type} (lhs rhs : splay_tree_base V) :
    splay_tree_base V × splay_tree_base V :=
  (⟨merge_subtrees lhs.root rhs.root⟩, ⟨.nil⟩)

/-- Translation of `order_statistic_tree` (`tree_impl.h:631`): run the
order-statistic descent and splay the found node to the root; a null result
leaves the tree untouched. -/
def order_statistic_tree {V : Type} (tree : splay_tree_base V) (n : Nat) :
    Option (NodeT V) × splay_tree_base V :=
  match order_statistic_subtree tree.root n with
  | none => (none, tree)
  | some (u, ctx) =>
    let m := splay_node u ctx
    (some m, ⟨m.toTree⟩)

/-- Translation of `split_lower_impl` (`splay_tree.h:520`): on a non-null root
find the lower bound of `key`; if it exists splay it and split at the root
with the root going right (`split_root`, whose body is `split_right_subtree`),
otherwise everything goes left. -/
def split_lower_impl {K V : Type} (cmp : K → K → Bool) (ext : V → K)
    (root : STree V) (key : K) : STree V × STree V :=
  match root with
  | .nil => (.nil, .nil)
  | .node a b c d =>
    match lower_bound_subtree cmp ext key (.node a b c d) [] none with
    | some (u, ctx) => split_right_subtree (splay_node u ctx)
    | none => (.node a b c d, .nil)

/-- Translation of `split_upper_impl` (`splay_tree.h:541`): as
`split_lower_impl` with the upper bound as the pivot. -/
def split_upper_impl {K V : Type} (cmp : K → K → Bool) (ext : V → K)
    (root : STree V) (key : K) : STree V × STree V :=
  match root with
  | .nil => (.nil, .nil)
  | .node a b c d =>
    match upper_bound_subtree cmp ext key (.node a b c d) [] none with
    | some (u, ctx) => split_right_subtree (splay_node u ctx)
    | none => (.node a b c d, .nil)

/-- Keyed container of `splay_tree.h:566`: root pointer plus the injected
key extractor and comparator function objects. -/
structure splay_tree (K V : Type) where
  root : STree V
  extractor : V → K
  comparator : K → K → Bool

/-- Translation of `splay_tree::size` (`splay_tree.h:614`). -/
def splay_tree.size {K V : Type} (t : splay_tree K V) : Nat :=
  ssz t.root

/-- Translation of `splay_tree::empty` (`splay_tree.h:619`).  The member body
is literally `return tree->root != nullptr;`. -/
def splay_tree.empty {K V : Type} (t : splay_tree K V) : Bool :=
  !(isNil t.root)

/-- Translation of `splay_tree::find` (`splay_tree.h:626`), whose body is the
same algorithm as `find_tree`, using the container's own comparator and
extractor. -/
def splay_tree.find {K V : Type} (t : splay_tree K V) (key : K) :
    Option (NodeT V) × splay_tree K V :=
  let res := find_tree t.comparator t.extractor ⟨t.root⟩ key
  (res.1, ⟨res.2.root, t.extractor, t.comparator⟩)

/-- Translation of `splay_tree::insert` (`splay_tree.h:642`), whose body is
the same algorithm as `insert_tree`. -/
def splay_tree.insert {K V : Type} (t : splay_tree K V) (value : V) :
    Option (NodeT V) × splay_tree K V :=
  let res := insert_tree t.comparator t.extractor ⟨t.root⟩ value
  (res.1, ⟨res.2.root, t.extractor, t.comparator⟩)

/-- Translation of `splay_tree::erase` (`splay_tree.h:662`), same algorithm as
`erase_tree`; the argument is the erased node's location. -/
def splay_tree.erase {K V : Type} (t : splay_tree K V) (u : NodeT V)
    (ctx : List (Frame V)) : splay_tree K V :=
  ⟨(erase_tree u ctx).root, t.extractor, t.comparator⟩

/-- Translation of `splay_tree::split_lower` (`splay_tree.h:681`): compute
`split_lower_impl` on this tree's root, null this tree's root, then clear each
output container and overwrite its root with the corresponding part.  The
result triple is (this tree, left output tree, right output tree); each
output container keeps its own extractor/comparator, which the member never
touches. -/
def splay_tree.split_lower {K V : Type} (t : splay_tree K V) (key : K)
    (left_tree right_tree : splay_tree K V) :
    splay_tree K V × splay_tree K V × splay_tree K V :=
  let trees := split_lower_impl t.comparator t.extractor t.root key
  (⟨.nil, t.extractor, t.comparator⟩,
   ⟨trees.1, left_tree.extractor, left_tree.comparator⟩,
   ⟨trees.2, right_tree.extractor, right_tree.comparator⟩)

/-- Translation of `splay_tree::split_upper` (`splay_tree.h:698`). -/
def splay_tree.split_upper {K V : Type} (t : splay_tree K V) (key : K)
    (left_tree right_tree : splay_tree K V) :
    splay_tree K V × splay_tree K V × splay_tree K V :=
  let trees := split_upper_impl t.comparator t.extractor t.root key
  (⟨.nil, t.extractor, t.comparator⟩,
   ⟨trees.1, left_tree.extractor, left_tree.comparator⟩,
   ⟨trees.2, right_tree.extractor, right_tree.comparator⟩)

/-- Translation of `splay_tree::merge` (`splay_tree.h:714`): merge the roots
into this tree and null the donor's root; all other fields stay. -/
def splay_tree.merge {K V : Type} (t rhs : splay_tree K V) :
    splay_tree K V × splay_tree K V :=
  (⟨merge_subtrees t.root rhs.root, t.extractor, t.comparator⟩,
   ⟨.nil, rhs.extractor, rhs.comparator⟩)

/-- Translation of `splay_tree::swap` (`splay_tree.h:721`).  The member body
is exactly `std::swap(tree->root, other.root);` — only the root pointers are
exchanged; the `extractor` and `comparator` members are not touched. -/
def splay_tree.swap {K V : Type} (t other : splay_tree K V) :
    splay_tree K V × splay_tree K V :=
  (⟨other.root, t.extractor, t.comparator⟩, ⟨t.root, other.extractor, other.comparator⟩)

/-- Translation of `splay_tree::clear` (`splay_tree.h:727`).  The member body
is exactly `destroy_substree(tree->root);` — every node reachable from the
root is deallocated (second component: the deallocated values), but no member
field is assigned, so the container's `root` pointer keeps its old value
(dangling whenever the tree was non-empty). -/
def splay_tree.clear {K V : Type} (t : splay_tree K V) :
    splay_tree K V × List V :=
  (t, destroy_substree t.root)

/-- Positional container of `implicit_splay_tree.h:13`: wraps a
`splay_tree_base`. -/
structure implicit_splay_tree (V : Type) where
  impl : splay_tree_base V
deriving Repr, DecidableEq

/-- Translation of `implicit_splay_tree::size` (`implicit_splay_tree.h:70`). -/
def implicit_splay_tree.size {V : Type} (t : implicit_splay_tree V) : Nat :=
  get_size_tree t.impl

/-- Translation of `implicit_splay_tree::empty` (`implicit_splay_tree.h:74`):
delegates to `is_empty_tree`. -/
def implicit_splay_tree.empty {V : Type} (t : implicit_splay_tree V) : Bool :=
  is_empty_tree t.impl

/-- Translation of `implicit_splay_tree::insert` (`implicit_splay_tree.h:82`):
build a fresh single-node tree and merge it into this tree from the right.
The member returns `new_tree.root`, read *after* `merge_trees` has already
nulled the donor's root — the returned pointer (first component) is therefore
always null. -/
def implicit_splay_tree.insert {V : Type} (t : implicit_splay_tree V) (value : V) :
    STree V × implicit_splay_tree V :=
  let mr := merge_trees t.impl (create_tree1 value)
  (mr.2.root, ⟨mr.1⟩)

/-- Translation of `implicit_splay_tree::erase` (`implicit_splay_tree.h:88`). -/
def implicit_splay_tree.erase {V : Type} (_ : implicit_splay_tree V) (u : NodeT V)
    (ctx : List (Frame V)) : implicit_splay_tree V :=
  ⟨erase_tree u ctx⟩

/-- Translation of `implicit_splay_tree::split_left`
(`implicit_splay_tree.h:92`): this tree keeps the left part, the returned tree
(second component) holds the right part. -/
def implicit_splay_tree.split_left {V : Type} (t : implicit_splay_tree V)
    (node : Option (NodeT V × List (Frame V))) :
    implicit_splay_tree V × implicit_splay_tree V :=
  let s := split_left_tree t.impl node
  (⟨s.1⟩, ⟨s.2⟩)

/-- Translation of `implicit_splay_tree::split_right`
(`implicit_splay_tree.h:98`). -/
def implicit_splay_tree.split_right {V : Type} (t : implicit_splay_tree V)
    (node : Option (NodeT V × List (Frame V))) :
    implicit_splay_tree V × implicit_splay_tree V :=
  let s := split_right_tree t.impl node
  (⟨s.1⟩, ⟨s.2⟩)

/-- Translation of `implicit_splay_tree::merge` (`implicit_splay_tree.h:104`). -/
def implicit_splay_tree.merge {V : Type} (t rhs : implicit_splay_tree V) :
    implicit_splay_tree V × implicit_splay_tree V :=
  let mr := merge_trees t.impl rhs.impl
  (⟨mr.1⟩, ⟨mr.2⟩)

/-- Translation of `implicit_splay_tree::order_statistic`
(`implicit_splay_tree.h:108`). -/
def implicit_splay_tree.order_statistic {V : Type} (t : implicit_splay_tree V)
    (n : Nat) : Option (NodeT V) × implicit_splay_tree V :=
  let res := order_statistic_tree t.impl n
  (res.1, ⟨res.2⟩)

/-- Translation of `implicit_splay_tree::swap` (`implicit_splay_tree.h:112`). -/
def implicit_splay_tree.swap {V : Type} (t other : implicit_splay_tree V) :
    implicit_splay_tree V × implicit_splay_tree V :=
  let sr := swap_trees t.impl other.impl
  (⟨sr.1⟩, ⟨sr.2⟩)

/-- Translation of `implicit_splay_tree::clear` (`implicit_splay_tree.h:117`):
delegates to `clear_tree`, which does null the root. -/
def implicit_splay_tree.clear {V : Type} (t : implicit_splay_tree V) :
    implicit_splay_tree V × List V :=
  let cr := clear_tree t.impl
  (⟨cr.1⟩, cr.2)

/-!
Specification-side notions: the key-ordering invariant of §3, the
decomposition of a location's surroundings into the in-order values to its
left and right, the size-consistency of a location, the pointer-graph view of
a subtree used to state the bidirectional-link invariant, and a deep embedding
of public operation sequences.
-/

/-- Key-ordering invariant of §3 (keyed variant): at every node, every key in
the left subtree is strictly less than the node's extracted key and every key
in the right subtree strictly greater.  Stated over a `LinearOrder` on keys,
the instantiation used throughout the repository's demo and tests (`lhs.value
< rhs.value` comparators). -/
def Ordered {K V : Type} [LinearOrder K] (ext : V → K) : STree V → Prop
  | .nil => True
  | .node l v _ r =>
    (∀ x ∈ inorder l, ext x < ext v) ∧ (∀ x ∈ inorder r, ext v < ext x) ∧
      Ordered ext l ∧ Ordered ext r

/-- Decidability of `Ordered`, so that concrete witnesses can be checked by
`decide`. -/
def orderedDecidable {K V : Type} [LinearOrder K] (ext : V → K) :
    (t : STree V) → Decidable (Ordered ext t)
  | .nil => .isTrue trivial
  | .node l v sz r =>
    haveI := orderedDecidable ext l
    haveI := orderedDecidable ext r
    decidable_of_iff
      ((∀ x ∈ inorder l, ext x < ext v) ∧ (∀ x ∈ inorder r, ext v < ext x) ∧
        Ordered ext l ∧ Ordered ext r) (by simp [Ordered])

instance {K V : Type} [LinearOrder K] (ext : V → K) (t : STree V) :
    Decidable (Ordered ext t) :=
  orderedDecidable ext t

/-- Comparator `lhs < rhs` used by the repository's demo and tests. -/
def ltCmp (K : Type) [LinearOrder K] : K → K → Bool :=
  fun a b => decide (a < b)

/-- In-order values of the surroundings of a location that lie to the *left*
of the located node's subtree: a `right`-child frame contributes its parent's
left subtree and the parent's value, a `left`-child frame nothing. -/
def ctxL {V : Type} : List (Frame V) → List V
  | [] => []
  | .left _ _ _ :: rest => ctxL rest
  | .right pl pv _ :: rest => ctxL rest ++ (inorder pl ++ [pv])

/-- In-order values of the surroundings of a location that lie to the *right*
of the located node's subtree. -/
def ctxR {V : Type} : List (Frame V) → List V
  | [] => []
  | .left pv _ pr :: rest => (pv :: inorder pr) ++ ctxR rest
  | .right _ _ _ :: rest => ctxR rest

/-- Rebuild the tree around an arbitrary (possibly null) subtree placed at a
location's slot. -/
def plugT {V : Type} (t : STree V) : List (Frame V) → STree V
  | [] => t
  | .left pv psz pr :: rest => plugT (.node t pv psz pr) rest
  | .right pl pv psz :: rest => plugT (.node pl pv psz t) rest

/-- Size-consistency of a located node: its own size field and both its
subtrees are consistent. -/
def nodeOK {V : Type} (u : NodeT V) : Bool :=
  u.sz == 1 + realSize u.l + realSize u.r && sizeOK u.l && sizeOK u.r

/-- Size-consistency of the subtree a frame carries. -/
def frameOK {V : Type} : Frame V → Bool
  | .left _ _ pr => sizeOK pr
  | .right pl _ _ => sizeOK pl

/-- Size-consistency of every subtree hanging off a context. -/
def ctxOK {V : Type} (ctx : List (Frame V)) : Bool :=
  ctx.all frameOK

/-- Pointer fields of one node in the pointer-graph view of a subtree: the
node's value and size field together with the addresses its `parent`, `left`
and `right` pointers refer to (`none` for `nullptr`).  A node's address is its
access path from the root (`false` = left, `true` = right). -/
structure NodeRec (V : Type) where
  value : V
  size : Nat
  parent : Option (List Bool)
  left : Option (List Bool)
  right : Option (List Bool)
deriving Repr, DecidableEq

/-- Pointer-graph view of the subtree `t` whose root sits at address `addr`
with parent address `par`: the association list of all node addresses and
their pointer fields. -/
def graphOf {V : Type} : STree V → Option (List Bool) → List Bool →
    List (List Bool × NodeRec V)
  | .nil, _, _ => []
  | .node l v sz r, par, addr =>
    (addr, ⟨v, sz, par,
      if isNil l then none else some (addr ++ [false]),
      if isNil r then none else some (addr ++ [true])⟩) ::
      (graphOf l (some addr) (addr ++ [false]) ++ graphOf r (some addr) (addr ++ [true]))

/-- Bidirectional-link invariant of §3 over a pointer graph, as the test
driver's `check_structure` verifies it: a present parent pointer leads to a
node of which this node is exactly one of the two children, and each present
child's parent pointer leads back. -/
def linksOK {V : Type} (g : List (List Bool × NodeRec V)) : Prop :=
  ∀ a rec, (a, rec) ∈ g →
    (∀ pa, rec.parent = some pa → ∃ prec, (pa, prec) ∈ g ∧
      ((prec.left = some a ∧ prec.right ≠ some a) ∨
       (prec.right = some a ∧ prec.left ≠ some a))) ∧
    (∀ la, rec.left = some la → ∃ lrec, (la, lrec) ∈ g ∧ lrec.parent = some a) ∧
    (∀ ra, rec.right = some ra → ∃ rrec, (ra, rrec) ∈ g ∧ rrec.parent = some a)

/-- Deep embedding of the public operation sequences of §6 driving any number
of containers (addressed by index).  The node arguments of `erase` and of the
node-based splits are obtained through the public queries (`find`,
`order_statistic`) which splay the node to the root first — exactly how the
repository's demo and test driver produce them. -/
inductive Op (K V : Type) where
  | insertOp (i : Nat) (v : V)
  | insertPosOp (i : Nat) (v : V)
  | findOp (i : Nat) (k : K)
  | lowerBoundOp (i : Nat) (k : K)
  | upperBoundOp (i : Nat) (k : K)
  | orderStatisticOp (i : Nat) (n : Nat)
  | eraseFoundOp (i : Nat) (k : K)
  | eraseAtOp (i : Nat) (n : Nat)
  | mergeIntoOp (i j : Nat)
  | splitLowerOp (i : Nat) (k : K) (el er : Nat)
  | splitUpperOp (i : Nat) (k : K) (el er : Nat)
  | splitLeftAtOp (i : Nat) (n : Nat) (j : Nat)
  | splitRightAtOp (i : Nat) (n : Nat) (j : Nat)
  | copyOp (i j : Nat)
  | clearOp (i : Nat)
  | swapOp (i j : Nat)

/-- Pool of containers a sequence of operations acts on; an out-of-range index
reads as an empty tree. -/
def poolGet {V : Type} (p : List (splay_tree_base V)) (i : Nat) : splay_tree_base V :=
  p.getD i create_tree

/-- One public operation, acting on the pool through the translated engine
functions. -/
def stepOp {K V : Type} (cmp : K → K → Bool) (ext : V → K)
    (p : List (splay_tree_base V)) : Op K V → List (splay_tree_base V)
  | .insertOp i v => p.set i (insert_tree cmp ext (poolGet p i) v).2
  | .insertPosOp i v => p.set i (merge_trees (poolGet p i) (create_tree1 v)).1
  | .findOp i k => p.set i (find_tree cmp ext (poolGet p i) k).2
  | .lowerBoundOp i k => p.set i (lower_bound_tree cmp ext (poolGet p i) k).2
  | .upperBoundOp i k => p.set i (upper_bound_tree cmp ext (poolGet p i) k).2
  | .orderStatisticOp i n => p.set i (order_statistic_tree (poolGet p i) n).2
  | .eraseFoundOp i k =>
    match find_tree cmp ext (poolGet p i) k with
    | (none, t2) => p.set i t2
    | (some m, _) => p.set i (erase_tree m [])
  | .eraseAtOp i n =>
    match order_statistic_tree (poolGet p i) n with
    | (none, t2) => p.set i t2
    | (some m, _) => p.set i (erase_tree m [])
  | .mergeIntoOp i j =>
    let mr := merge_trees (poolGet p i) (poolGet p j)
    (p.set i mr.1).set j mr.2
  | .splitLowerOp i k el er =>
    let trees := split_lower_impl cmp ext (poolGet p i).root k
    (((p.set i create_tree).set el ⟨trees.1⟩).set er ⟨trees.2⟩)
  | .splitUpperOp i k el er =>
    let trees := split_upper_impl cmp ext (poolGet p i).root k
    (((p.set i create_tree).set el ⟨trees.1⟩).set er ⟨trees.2⟩)
  | .splitLeftAtOp i n j =>
    match order_statistic_tree (poolGet p i) n with
    | (none, t2) =>
      let s := split_left_tree t2 none
      (p.set i s.1).set j s.2
    | (some m, t2) =>
      let s := split_left_tree t2 (some (m, []))
      (p.set i s.1).set j s.2
  | .splitRightAtOp i n j =>
    match order_statistic_tree (poolGet p i) n with
    | (none, t2) =>
      let s := split_right_tree t2 none
      (p.set i s.1).set j s.2
    | (some m, t2) =>
      let s := split_right_tree t2 (some (m, []))
      (p.set i s.1).set j s.2
  | .copyOp i j => p.set j (copy_tree (poolGet p i))
  | .clearOp i => p.set i (clear_tree (poolGet p i)).1
  | .swapOp i j =>
    let sr := swap_trees (poolGet p i) (poolGet p j)
    (p.set i sr.1).set j sr.2

/-- Run a sequence of public operations on a pool. -/
def runOps {K V : Type} (cmp : K → K → Bool) (ext : V → K)
    (p : List (splay_tree_base V)) : List (Op K V) → List (splay_tree_base V)
  | [] => p
  | op :: rest => runOps cmp ext (stepOp cmp ext p op) rest

/-- Well-formedness of a location inside the tree `T`: the located node's size
field and all subtrees in sight are size-consistent, and reattaching along the
parent chain rebuilds `T` — i.e. the location is a genuine `tree_node*` into
`T`. -/
def goodLoc {V : Type} (T : STree V) (loc : NodeT V × List (Frame V)) : Prop :=
  nodeOK loc.1 = true ∧ ctxOK loc.2 = true ∧ plugT loc.1.toTree loc.2 = T

/-!
Basic lemmas about sizes, in-order sequences and location plumbing.
-/

theorem inorder_toTree {V : Type} (u : NodeT V) :
    inorder u.toTree = inorder u.l ++ u.v :: inorder u.r := rfl

theorem realSize_eq_length_inorder {V : Type} (t : STree V) :
    realSize t = (inorder t).length := by
  induction t with
  | nil => rfl
  | node l v sz r ihl ihr =>
    simp [realSize, inorder, ihl, ihr]
    omega

theorem inorder_eq_nil_iff {V : Type} (t : STree V) :
    inorder t = [] ↔ t = .nil := by
  cases t with
  | nil => simp [inorder]
  | node l v sz r => simp [inorder]

theorem sizeOK_node_iff {V : Type} (l : STree V) (v : V) (sz : Nat) (r : STree V) :
    sizeOK (.node l v sz r) = true ↔
      sz = 1 + realSize l + realSize r ∧ sizeOK l = true ∧ sizeOK r = true := by
  simp [sizeOK, Bool.and_assoc]

theorem ssz_eq_realSize {V : Type} (t : STree V) (h : sizeOK t = true) :
    ssz t = realSize t := by
  cases t with
  | nil => rfl
  | node l v sz r =>
    rw [sizeOK_node_iff] at h
    simp [ssz, realSize, h.1]

theorem nodeOK_iff {V : Type} (u : NodeT V) :
    nodeOK u = true ↔
      u.sz = 1 + realSize u.l + realSize u.r ∧ sizeOK u.l = true ∧ sizeOK u.r = true := by
  simp [nodeOK, Bool.and_assoc]

theorem nodeOK_toTree {V : Type} (u : NodeT V) :
    sizeOK u.toTree = nodeOK u := by
  cases u with
  | mk l v sz r => simp [NodeT.toTree, sizeOK, nodeOK]

theorem ssz_toTree {V : Type} (u : NodeT V) : ssz u.toTree = u.sz := rfl

theorem plug_eq_plugT {V : Type} (ctx : List (Frame V)) (u : NodeT V) :
    plug u ctx = plugT u.toTree ctx := by
  induction ctx generalizing u with
  | nil => rfl
  | cons f rest ih =>
    cases f with
    | left pv psz pr => simp [plug, plugT, assemble, ih, NodeT.toTree]
    | right pl pv psz => simp [plug, plugT, assemble, ih, NodeT.toTree]

theorem inorder_plugT {V : Type} (ctx : List (Frame V)) (t : STree V) :
    inorder (plugT t ctx) = ctxL ctx ++ inorder t ++ ctxR ctx := by
  induction ctx generalizing t with
  | nil => simp [plugT, ctxL, ctxR]
  | cons f rest ih =>
    cases f with
    | left pv psz pr => simp [plugT, ctxL, ctxR, ih, inorder]
    | right pl pv psz => simp [plugT, ctxL, ctxR, ih, inorder]

/-!
The central splay lemma: splaying a located node to the root keeps the node's
value at the new root, collects the surrounding left context in-order into the
new left subtree, and the right context into the new right subtree.  In
particular the whole tree's in-order sequence is preserved.
-/

theorem splay_node_spec {V : Type} (u : NodeT V) (ctx : List (Frame V)) :
    (splay_node u ctx).v = u.v ∧
      inorder (splay_node u ctx).l = ctxL ctx ++ inorder u.l ∧
      inorder (splay_node u ctx).r = inorder u.r ++ ctxR ctx := by
  induction u, ctx using splay_node.induct with
  | case1 u => simp [splay_node, ctxL, ctxR]
  | case2 u f =>
    cases f with
    | left pv psz pr =>
      simp [splay_node, rotate_node, left_rotate_node, update_size, ctxL, ctxR, inorder]
    | right pl pv psz =>
      simp [splay_node, rotate_node, right_rotate_node, update_size, ctxL, ctxR, inorder]
  | case3 u f g rest hside ih =>
    rw [splay_node]
    simp only [hside, if_true]
    refine ⟨?_, ?_, ?_⟩ <;>
      cases f with
      | left av asz c =>
        cases g with
        | left bv bsz d => simp [Frame.isLeftChild, Frame.isRightChild] at hside
        | right bl bv bsz =>
          rcases ih with ⟨ihv, ihl, ihr⟩
          simp [rotate_node, left_rotate_node, right_rotate_node, update_size] at ihv ihl ihr ⊢
          simp [ihv, ihl, ihr, ctxL, ctxR, inorder]
      | right al av asz =>
        cases g with
        | left bv bsz br =>
          rcases ih with ⟨ihv, ihl, ihr⟩
          simp [rotate_node, left_rotate_node, right_rotate_node, update_size] at ihv ihl ihr ⊢
          simp [ihv, ihl, ihr, ctxL, ctxR, inorder]
        | right bl bv bsz => simp [Frame.isLeftChild, Frame.isRightChild] at hside
  | case4 u f g rest hside ih =>
    rw [splay_node]
    simp only [hside, if_false]
    refine ⟨?_, ?_, ?_⟩ <;>
      cases f with
      | left av asz c =>
        cases g with
        | left bv bsz d =>
          rcases ih with ⟨ihv, ihl, ihr⟩
          simp [rotate_node, left_rotate_node, rotate_parent_frame, update_size] at ihv ihl ihr ⊢
          simp [ihv, ihl, ihr, ctxL, ctxR, inorder]
        | right bl bv bsz => simp [Frame.isLeftChild, Frame.isRightChild] at hside
      | right al av asz =>
        cases g with
        | left bv bsz br => simp [Frame.isLeftChild, Frame.isRightChild] at hside
        | right bl bv bsz =>
          rcases ih with ⟨ihv, ihl, ihr⟩
          simp [rotate_node, right_rotate_node, rotate_parent_frame, update_size] at ihv ihl ihr ⊢
          simp [ihv, ihl, ihr, ctxL, ctxR, inorder]

/-!
Preservation of the size-consistency invariant by rotations and splaying.
-/

theorem sizeOK_rebuild {V : Type} (l r : STree V) (v : V)
    (hl : sizeOK l = true) (hr : sizeOK r = true) :
    sizeOK (STree.node l v (1 + ssz l + ssz r) r) = true := by
  rw [sizeOK_node_iff]
  exact ⟨by rw [ssz_eq_realSize l hl, ssz_eq_realSize r hr], hl, hr⟩

theorem ctxOK_cons {V : Type} (f : Frame V) (rest : List (Frame V)) :
    ctxOK (f :: rest) = (frameOK f && ctxOK rest) := by
  simp [ctxOK]

theorem rotate_node_ok {V : Type} (u : NodeT V) (f : Frame V)
    (hu : nodeOK u = true) (hf : frameOK f = true) :
    nodeOK (rotate_node u f) = true := by
  rw [nodeOK_iff] at hu
  cases f with
  | left pv psz pr =>
    simp only [frameOK] at hf
    have ha : sizeOK (STree.node u.r pv (1 + ssz u.r + ssz pr) pr) = true :=
      sizeOK_rebuild u.r pr pv hu.2.2 hf
    simp only [rotate_node, left_rotate_node, update_size]
    rw [nodeOK_iff]
    refine ⟨?_, hu.2.1, ha⟩
    rw [ssz_eq_realSize _ hu.2.1, ssz_eq_realSize _ ha]
  | right pl pv psz =>
    simp only [frameOK] at hf
    have ha : sizeOK (STree.node pl pv (1 + ssz pl + ssz u.l) u.l) = true :=
      sizeOK_rebuild pl u.l pv hf hu.2.1
    simp only [rotate_node, right_rotate_node, update_size]
    rw [nodeOK_iff]
    refine ⟨?_, ha, hu.2.2⟩
    rw [ssz_eq_realSize _ hu.2.2, ssz_eq_realSize _ ha]

theorem rotate_parent_frame_ok {V : Type} (usz : Nat) (f g : Frame V)
    (hf : frameOK f = true) (hg : frameOK g = true) :
    frameOK (rotate_parent_frame usz f g) = true := by
  cases f with
  | left av asz c =>
    cases g with
    | left bv bsz d =>
      simp only [frameOK] at hf hg
      simp only [rotate_parent_frame, update_size, frameOK]
      exact sizeOK_rebuild c d bv hf hg
    | right bl bv bsz => simpa [rotate_parent_frame, frameOK] using hf
  | right al av asz =>
    cases g with
    | left bv bsz br => simpa [rotate_parent_frame, frameOK] using hf
    | right dl dv dsz =>
      simp only [frameOK] at hf hg
      simp only [rotate_parent_frame, update_size, frameOK]
      exact sizeOK_rebuild dl al dv hg hf

theorem splay_node_ok {V : Type} (u : NodeT V) (ctx : List (Frame V))
    (hu : nodeOK u = true) (hctx : ctxOK ctx = true) :
    nodeOK (splay_node u ctx) = true := by
  induction u, ctx using splay_node.induct with
  | case1 u => simpa [splay_node] using hu
  | case2 u f =>
    rw [ctxOK_cons] at hctx
    simp only [Bool.and_eq_true] at hctx
    rw [splay_node]
    exact rotate_node_ok u f hu hctx.1
  | case3 u f g rest hside ih =>
    rw [ctxOK_cons, Bool.and_eq_true, ctxOK_cons, Bool.and_eq_true] at hctx
    rw [splay_node]
    simp only [hside, if_true]
    exact ih (rotate_node_ok _ g (rotate_node_ok u f hu hctx.1) hctx.2.1) hctx.2.2
  | case4 u f g rest hside ih =>
    rw [ctxOK_cons, Bool.and_eq_true, ctxOK_cons, Bool.and_eq_true] at hctx
    rw [splay_node]
    simp only [hside, if_false]
    exact ih (rotate_node_ok u _ hu (rotate_parent_frame_ok u.sz f g hctx.1 hctx.2.1)) hctx.2.2

/-!
Every descent of the engine returns a genuine, size-consistent location of the
tree it descended into.
-/

theorem find_candidate_goodLoc {K V : Type} (cmp : K → K → Bool) (ext : V → K)
    (key : K) (T : STree V) (t : STree V) :
    ∀ (ctx : List (Frame V)),
      sizeOK t = true → ctxOK ctx = true → plugT t ctx = T →
      ∀ loc, find_candidate_subtree cmp ext key t ctx = some loc → goodLoc T loc := by
  induction t with
  | nil =>
    intro ctx _ _ _ loc h
    simp [find_candidate_subtree] at h
  | node l v sz r ihl ihr =>
    intro ctx hsz hctx hplug loc h
    rw [sizeOK_node_iff] at hsz
    have hself : goodLoc T (⟨l, v, sz, r⟩, ctx) := by
      refine ⟨?_, hctx, hplug⟩
      rw [nodeOK_iff]
      exact ⟨hsz.1, hsz.2.1, hsz.2.2⟩
    have hL : ctxOK (Frame.left v sz r :: ctx) = true := by
      rw [ctxOK_cons, Bool.and_eq_true]
      exact ⟨hsz.2.2, hctx⟩
    have hR : ctxOK (Frame.right l v sz :: ctx) = true := by
      rw [ctxOK_cons, Bool.and_eq_true]
      exact ⟨hsz.2.1, hctx⟩
    rw [find_candidate_subtree] at h
    by_cases h1 : cmp key (ext v) = true
    · rw [if_pos h1] at h
      cases hrec : find_candidate_subtree cmp ext key l (Frame.left v sz r :: ctx) with
      | none =>
        rw [hrec] at h
        cases h
        exact hself
      | some res =>
        rw [hrec] at h
        cases h
        exact ihl (Frame.left v sz r :: ctx) hsz.2.1 hL hplug loc hrec
    · rw [if_neg h1] at h
      by_cases h2 : cmp (ext v) key = true
      · rw [if_pos h2] at h
        cases hrec : find_candidate_subtree cmp ext key r (Frame.right l v sz :: ctx) with
        | none =>
          rw [hrec] at h
          cases h
          exact hself
        | some res =>
          rw [hrec] at h
          cases h
          exact ihr (Frame.right l v sz :: ctx) hsz.2.2 hR hplug loc hrec
      · rw [if_neg h2] at h
        cases h
        exact hself

theorem lower_bound_goodLoc {K V : Type} (cmp : K → K → Bool) (ext : V → K)
    (key : K) (T : STree V) (t : STree V) :
    ∀ (ctx : List (Frame V)) (best : Option (NodeT V × List (Frame V))),
      sizeOK t = true → ctxOK ctx = true → plugT t ctx = T →
      (∀ loc0, best = some loc0 → goodLoc T loc0) →
      ∀ loc, lower_bound_subtree cmp ext key t ctx best = some loc → goodLoc T loc := by
  induction t with
  | nil =>
    intro ctx best _ _ _ hbest loc h
    exact hbest loc h
  | node l v sz r ihl ihr =>
    intro ctx best hsz hctx hplug hbest loc h
    rw [sizeOK_node_iff] at hsz
    have hL : ctxOK (Frame.left v sz r :: ctx) = true := by
      rw [ctxOK_cons, Bool.and_eq_true]
      exact ⟨hsz.2.2, hctx⟩
    have hR : ctxOK (Frame.right l v sz :: ctx) = true := by
      rw [ctxOK_cons, Bool.and_eq_true]
      exact ⟨hsz.2.1, hctx⟩
    rw [lower_bound_subtree] at h
    by_cases h1 : cmp (ext v) key = true
    · rw [if_pos h1] at h
      exact ihr (Frame.right l v sz :: ctx) best hsz.2.2 hR hplug hbest loc h
    · rw [if_neg h1] at h
      refine ihl (Frame.left v sz r :: ctx) _ hsz.2.1 hL hplug ?_ loc h
      intro loc0 h0
      cases h0
      refine ⟨?_, hctx, hplug⟩
      rw [nodeOK_iff]
      exact ⟨hsz.1, hsz.2.1, hsz.2.2⟩

theorem upper_bound_goodLoc {K V : Type} (cmp : K → K → Bool) (ext : V → K)
    (key : K) (T : STree V) (t : STree V) :
    ∀ (ctx : List (Frame V)) (best : Option (NodeT V × List (Frame V))),
      sizeOK t = true → ctxOK ctx = true → plugT t ctx = T →
      (∀ loc0, best = some loc0 → goodLoc T loc0) →
      ∀ loc, upper_bound_subtree cmp ext key t ctx best = some loc → goodLoc T loc := by
  induction t with
  | nil =>
    intro ctx best _ _ _ hbest loc h
    exact hbest loc h
  | node l v sz r ihl ihr =>
    intro ctx best hsz hctx hplug hbest loc h
    rw [sizeOK_node_iff] at hsz
    have hL : ctxOK (Frame.left v sz r :: ctx) = true := by
      rw [ctxOK_cons, Bool.and_eq_true]
      exact ⟨hsz.2.2, hctx⟩
    have hR : ctxOK (Frame.right l v sz :: ctx) = true := by
      rw [ctxOK_cons, Bool.and_eq_true]
      exact ⟨hsz.2.1, hctx⟩
    rw [upper_bound_subtree] at h
    by_cases h1 : cmp key (ext v) = true
    · rw [if_pos h1] at h
      refine ihl (Frame.left v sz r :: ctx) _ hsz.2.1 hL hplug ?_ loc h
      intro loc0 h0
      cases h0
      refine ⟨?_, hctx, hplug⟩
      rw [nodeOK_iff]
      exact ⟨hsz.1, hsz.2.1, hsz.2.2⟩
    · rw [if_neg h1] at h
      exact ihr (Frame.right l v sz :: ctx) best hsz.2.2 hR hplug hbest loc h

theorem order_statistic_go_goodLoc {V : Type} (T : STree V) (t : STree V) :
    ∀ (n : Nat) (ctx : List (Frame V)),
      sizeOK t = true → ctxOK ctx = true → plugT t ctx = T →
      ∀ loc, order_statistic_go t n ctx = some loc → goodLoc T loc := by
  induction t with
  | nil =>
    intro n ctx _ _ _ loc h
    simp [order_statistic_go] at h
  | node l v sz r ihl ihr =>
    intro n ctx hsz hctx hplug loc h
    rw [sizeOK_node_iff] at hsz
    have hL : ctxOK (Frame.left v sz r :: ctx) = true := by
      rw [ctxOK_cons, Bool.and_eq_true]
      exact ⟨hsz.2.2, hctx⟩
    have hR : ctxOK (Frame.right l v sz :: ctx) = true := by
      rw [ctxOK_cons, Bool.and_eq_true]
      exact ⟨hsz.2.1, hctx⟩
    rw [order_statistic_go] at h
    by_cases h1 : n < ssz l
    · rw [if_pos h1] at h
      exact ihl n (Frame.left v sz r :: ctx) hsz.2.1 hL hplug loc h
    · rw [if_neg h1] at h
      by_cases h2 : n = ssz l
      · rw [if_pos h2] at h
        cases h
        refine ⟨?_, hctx, hplug⟩
        rw [nodeOK_iff]
        exact ⟨hsz.1, hsz.2.1, hsz.2.2⟩
      · rw [if_neg h2] at h
        exact ihr (n - (ssz l + 1)) (Frame.right l v sz :: ctx) hsz.2.2 hR hplug loc h

theorem rightmost_loc_spec {V : Type} (t : STree V) :
    ∀ (ctx : List (Frame V)),
      sizeOK t = true → ctxOK ctx = true →
      ∀ loc, rightmost_loc t ctx = some loc →
        nodeOK loc.1 = true ∧ ctxOK loc.2 = true ∧ loc.1.r = .nil ∧
          ctxR loc.2 = ctxR ctx ∧
          ctxL loc.2 ++ inorder loc.1.l ++ [loc.1.v] = ctxL ctx ++ inorder t := by
  induction t with
  | nil =>
    intro ctx _ _ loc h
    simp [rightmost_loc] at h
  | node l v sz r ihl ihr =>
    intro ctx hsz hctx loc h
    rw [sizeOK_node_iff] at hsz
    cases r with
    | nil =>
      rw [rightmost_loc] at h
      cases h
      refine ⟨?_, hctx, rfl, rfl, ?_⟩
      · rw [nodeOK_iff]
        exact ⟨by simpa [realSize] using hsz.1, hsz.2.1, rfl⟩
      · simp [inorder]
    | node a b c d =>
      rw [rightmost_loc] at h
      have hR : ctxOK (Frame.right l v sz :: ctx) = true := by
        rw [ctxOK_cons, Bool.and_eq_true]
        exact ⟨hsz.2.1, hctx⟩
      have := ihr (Frame.right l v sz :: ctx) hsz.2.2 hR loc h
      refine ⟨this.1, this.2.1, this.2.2.1, ?_, ?_⟩
      · rw [this.2.2.2.1]
        simp [ctxR]
      · rw [this.2.2.2.2]
        simp [ctxL, inorder]

theorem frameOK_bump_frame {V : Type} (f : Frame V) :
    frameOK (bump_frame f) = frameOK f := by
  cases f <;> rfl

theorem ctxOK_insert_bump {V : Type} (ctx : List (Frame V)) :
    ctxOK (insert_bump ctx) = ctxOK ctx := by
  induction ctx with
  | nil => rfl
  | cons f rest ih =>
    simp only [insert_bump, List.map_cons] at *
    rw [ctxOK_cons, ctxOK_cons, frameOK_bump_frame, ih]

theorem insert_descent_spec {K V : Type} (cmp : K → K → Bool) (ext : V → K)
    (value : V) (t : STree V) :
    ∀ (ctx : List (Frame V)),
      sizeOK t = true → ctxOK ctx = true →
      ∀ loc, insert_descent cmp ext value t ctx = some loc →
        loc.1 = ⟨.nil, value, 1, .nil⟩ ∧ ctxOK loc.2 = true := by
  induction t with
  | nil =>
    intro ctx _ _ loc h
    simp [insert_descent] at h
  | node l v sz r ihl ihr =>
    intro ctx hsz hctx loc h
    rw [sizeOK_node_iff] at hsz
    have hL : ctxOK (Frame.left v sz r :: ctx) = true := by
      rw [ctxOK_cons, Bool.and_eq_true]
      exact ⟨hsz.2.2, hctx⟩
    have hR : ctxOK (Frame.right l v sz :: ctx) = true := by
      rw [ctxOK_cons, Bool.and_eq_true]
      exact ⟨hsz.2.1, hctx⟩
    rw [insert_descent.eq_def] at h
    dsimp only at h
    by_cases h1 : cmp (ext value) (ext v) = true
    · rw [if_pos h1] at h
      cases l with
      | nil =>
        cases h
        exact ⟨rfl, hL⟩
      | node a b c d =>
        exact ihl (Frame.left v sz r :: ctx) hsz.2.1 hL loc h
    · rw [if_neg h1] at h
      by_cases h2 : cmp (ext v) (ext value) = true
      · rw [if_pos h2] at h
        cases r with
        | nil =>
          cases h
          exact ⟨rfl, hR⟩
        | node a b c d =>
          exact ihr (Frame.right l v sz :: ctx) hsz.2.2 hR loc h
      · rw [if_neg h2] at h
        cases h

/-!
Consequences of the splay lemmas at a well-formed location: splaying keeps
the in-order sequence of the whole tree and keeps size-consistency.
-/

theorem splay_inorder_of_goodLoc {V : Type} {T : STree V} {u : NodeT V}
    {ctx : List (Frame V)} (h : goodLoc T (u, ctx)) :
    inorder (splay_node u ctx).toTree = inorder T := by
  obtain ⟨-, -, hplug⟩ := h
  obtain ⟨hv, hl, hr⟩ := splay_node_spec u ctx
  rw [inorder_toTree, hv, hl, hr, ← hplug, inorder_plugT, inorder_toTree]
  simp

theorem splay_sizeOK_of_goodLoc {V : Type} {T : STree V} {u : NodeT V}
    {ctx : List (Frame V)} (h : goodLoc T (u, ctx)) :
    sizeOK (splay_node u ctx).toTree = true := by
  rw [nodeOK_toTree]
  exact splay_node_ok u ctx h.1 h.2.1

theorem realSize_toTree_of_inorder {V : Type} (t1 t2 : STree V)
    (h : inorder t1 = inorder t2) : realSize t1 = realSize t2 := by
  rw [realSize_eq_length_inorder, realSize_eq_length_inorder, h]

/-!
Merge: content is concatenation, sizes stay consistent, empty sides pass the
other side through unchanged.
-/

theorem rightmost_loc_isSome {V : Type} (t : STree V) :
    ∀ (ctx : List (Frame V)), t ≠ .nil →
      ∃ loc, rightmost_loc t ctx = some loc := by
  induction t with
  | nil =>
    intro ctx h
    exact absurd rfl h
  | node l v sz r ihl ihr =>
    intro ctx _
    cases r with
    | nil => exact ⟨_, rfl⟩
    | node a b c d =>
      obtain ⟨loc, hloc⟩ := ihr (Frame.right l v sz :: ctx) (by simp)
      exact ⟨loc, by rw [rightmost_loc]; exact hloc⟩

theorem merge_subtrees_nil_left {V : Type} (rhs : STree V) :
    merge_subtrees .nil rhs = rhs := by
  cases rhs <;> rfl

theorem merge_subtrees_nil_right {V : Type} (lhs : STree V) :
    merge_subtrees lhs .nil = lhs := by
  cases lhs <;> rfl

theorem merge_subtrees_spec {V : Type} (lhs rhs : STree V)
    (hl : sizeOK lhs = true) (hr : sizeOK rhs = true) :
    inorder (merge_subtrees lhs rhs) = inorder lhs ++ inorder rhs ∧
      sizeOK (merge_subtrees lhs rhs) = true := by
  cases lhs with
  | nil => simpa [merge_subtrees_nil_left, inorder] using hr
  | node a b c d =>
    cases rhs with
    | nil => simpa [merge_subtrees_nil_right, inorder] using hl
    | node e f g h =>
      obtain ⟨loc, hloc⟩ := rightmost_loc_isSome (.node a b c d) [] (by simp)
      have hspec := rightmost_loc_spec (.node a b c d) [] hl rfl loc hloc
      obtain ⟨hnok, hcok, hrnil, hctxR, hcontent⟩ := hspec
      obtain ⟨hv, hml, hmr⟩ := splay_node_spec loc.1 loc.2
      have hmok : nodeOK (splay_node loc.1 loc.2) = true := splay_node_ok loc.1 loc.2 hnok hcok
      rw [nodeOK_iff] at hmok
      have hmrnil : (splay_node loc.1 loc.2).r = .nil := by
        rw [← inorder_eq_nil_iff, hmr, hrnil, hctxR]
        rfl
      have hmlv : inorder (splay_node loc.1 loc.2).l ++ [(splay_node loc.1 loc.2).v] =
          inorder (STree.node a b c d) := by
        rw [hv, hml]
        simpa [ctxL] using hcontent
      have hmerge : merge_subtrees (STree.node a b c d) (STree.node e f g h) =
          STree.node (splay_node loc.1 loc.2).l (splay_node loc.1 loc.2).v
            ((splay_node loc.1 loc.2).sz + ssz (STree.node e f g h))
            (STree.node e f g h) := by
        rw [merge_subtrees.eq_def]
        dsimp only
        rw [hloc]
      rw [hmerge]
      constructor
      · rw [inorder, ← hmlv]
        simp
      · rw [sizeOK_node_iff]
        refine ⟨?_, hmok.2.1, hr⟩
        rw [hmok.1, hmrnil, ssz_eq_realSize _ hr]
        simp [realSize]

/-!
Splits at a size-consistent root, and the deep copy.
-/

theorem split_left_subtree_spec {V : Type} (u : NodeT V) (hu : nodeOK u = true) :
    inorder (split_left_subtree u).1 = inorder u.l ++ [u.v] ∧
      (split_left_subtree u).2 = u.r ∧
      sizeOK (split_left_subtree u).1 = true ∧
      sizeOK (split_left_subtree u).2 = true := by
  rw [nodeOK_iff] at hu
  refine ⟨by simp [split_left_subtree, inorder], rfl, ?_, hu.2.2⟩
  show sizeOK (STree.node u.l u.v (u.sz - ssz u.r) .nil) = true
  rw [sizeOK_node_iff]
  refine ⟨?_, hu.2.1, rfl⟩
  rw [ssz_eq_realSize _ hu.2.2, hu.1]
  simp [realSize]

theorem split_right_subtree_spec {V : Type} (u : NodeT V) (hu : nodeOK u = true) :
    (split_right_subtree u).1 = u.l ∧
      inorder (split_right_subtree u).2 = u.v :: inorder u.r ∧
      sizeOK (split_right_subtree u).1 = true ∧
      sizeOK (split_right_subtree u).2 = true := by
  rw [nodeOK_iff] at hu
  refine ⟨rfl, by simp [split_right_subtree, inorder], hu.2.1, ?_⟩
  show sizeOK (STree.node .nil u.v (u.sz - ssz u.l) u.r) = true
  rw [sizeOK_node_iff]
  refine ⟨?_, rfl, hu.2.2⟩
  rw [ssz_eq_realSize _ hu.2.1, hu.1]
  simp [realSize]
  omega

theorem copy_subtree_eq {V : Type} (t : STree V) : copy_subtree t = t := by
  induction t with
  | nil => rfl
  | node l v sz r ihl ihr => simp [copy_subtree, ihl, ihr]

/-!
Rank correctness of the order-statistic descent.
-/

theorem order_statistic_go_rank {V : Type} (t : STree V) :
    ∀ (n : Nat) (ctx : List (Frame V)),
      sizeOK t = true → n < realSize t →
      ∃ loc, order_statistic_go t n ctx = some loc ∧
        (inorder t)[n]? = some loc.1.v := by
  induction t with
  | nil =>
    intro n ctx _ hn
    simp [realSize] at hn
  | node l v sz r ihl ihr =>
    intro n ctx hsz hn
    rw [sizeOK_node_iff] at hsz
    have hssl : ssz l = realSize l := ssz_eq_realSize l hsz.2.1
    have hlen : (inorder l).length = realSize l := (realSize_eq_length_inorder l).symm
    rw [order_statistic_go]
    by_cases h1 : n < ssz l
    · rw [if_pos h1]
      obtain ⟨loc, hloc, hval⟩ :=
        ihl n (Frame.left v sz r :: ctx) hsz.2.1 (by omega)
      refine ⟨loc, hloc, ?_⟩
      rw [inorder, List.getElem?_append_left (by omega)]
      exact hval
    · rw [if_neg h1]
      by_cases h2 : n = ssz l
      · rw [if_pos h2]
        refine ⟨(⟨l, v, sz, r⟩, ctx), rfl, ?_⟩
        rw [inorder, List.getElem?_append_right (by omega)]
        simp [h2, hssl, hlen]
      · rw [if_neg h2]
        have hn2 : n - (ssz l + 1) < realSize r := by
          simp [realSize] at hn
          omega
        obtain ⟨loc, hloc, hval⟩ :=
          ihr (n - (ssz l + 1)) (Frame.right l v sz :: ctx) hsz.2.2 hn2
        refine ⟨loc, hloc, ?_⟩
        rw [inorder, List.getElem?_append_right (by omega)]
        rw [show n - (inorder l).length = (n - (ssz l + 1)) + 1 by omega]
        simpa using hval

/-!
Consequences of the key-ordering invariant: the in-order sequence is strictly
sorted, a present key is found by the binary-search descent, and inserting a
present key falls through to the equal-key branch.
-/

theorem ordered_node_iff {K V : Type} [LinearOrder K] (ext : V → K)
    (l : STree V) (v : V) (sz : Nat) (r : STree V) :
    Ordered ext (.node l v sz r) ↔
      (∀ x ∈ inorder l, ext x < ext v) ∧ (∀ x ∈ inorder r, ext v < ext x) ∧
        Ordered ext l ∧ Ordered ext r :=
  Iff.rfl

theorem inorder_pairwise {K V : Type} [LinearOrder K] (ext : V → K) (t : STree V)
    (h : Ordered ext t) : (inorder t).Pairwise (fun a b => ext a < ext b) := by
  induction t with
  | nil => simp [inorder]
  | node l v sz r ihl ihr =>
    rw [ordered_node_iff] at h
    rw [inorder, List.pairwise_append]
    refine ⟨ihl h.2.2.1, ?_, ?_⟩
    · rw [List.pairwise_cons]
      exact ⟨h.2.1, ihr h.2.2.2⟩
    · intro a ha b hb
      rcases List.mem_cons.mp hb with hb | hb
      · rw [hb]
        exact h.1 a ha
      · exact lt_trans (h.1 a ha) (h.2.1 b hb)

theorem mem_inorder_of_goodLoc {V : Type} {T : STree V}
    {loc : NodeT V × List (Frame V)} (h : goodLoc T loc) :
    loc.1.v ∈ inorder T := by
  rw [← h.2.2, inorder_plugT, inorder_toTree]
  simp

theorem find_candidate_isSome {K V : Type} (cmp : K → K → Bool) (ext : V → K)
    (key : K) (t : STree V) :
    ∀ (ctx : List (Frame V)), t ≠ .nil →
      ∃ loc, find_candidate_subtree cmp ext key t ctx = some loc := by
  induction t with
  | nil =>
    intro ctx h
    exact absurd rfl h
  | node l v sz r ihl ihr =>
    intro ctx _
    rw [find_candidate_subtree]
    by_cases h1 : cmp key (ext v) = true
    · rw [if_pos h1]
      cases hrec : find_candidate_subtree cmp ext key l (Frame.left v sz r :: ctx) with
      | none => exact ⟨_, rfl⟩
      | some res => exact ⟨res, rfl⟩
    · rw [if_neg h1]
      by_cases h2 : cmp (ext v) key = true
      · rw [if_pos h2]
        cases hrec : find_candidate_subtree cmp ext key r (Frame.right l v sz :: ctx) with
        | none => exact ⟨_, rfl⟩
        | some res => exact ⟨res, rfl⟩
      · rw [if_neg h2]
        exact ⟨_, rfl⟩

theorem find_candidate_hit {K V : Type} [LinearOrder K] (ext : V → K) (key : K)
    (t : STree V) :
    ∀ (ctx : List (Frame V)) (w : V), Ordered ext t → w ∈ inorder t → ext w = key →
      ∃ loc, find_candidate_subtree (ltCmp K) ext key t ctx = some loc ∧
        ext loc.1.v = key := by
  induction t with
  | nil =>
    intro ctx w _ hw _
    simp [inorder] at hw
  | node l v sz r ihl ihr =>
    intro ctx w hord hw hkey
    rw [ordered_node_iff] at hord
    rw [inorder] at hw
    rw [find_candidate_subtree]
    by_cases h1 : key < ext v
    · have hwl : w ∈ inorder l := by
        rcases List.mem_append.mp hw with h | h
        · exact h
        · rcases List.mem_cons.mp h with h | h
          · rw [h] at hkey
            exact absurd (hkey ▸ h1) (lt_irrefl key)
          · exact absurd (lt_trans (hkey ▸ hord.2.1 w h) h1) (lt_irrefl (ext v))
      obtain ⟨loc, hloc, hlockey⟩ :=
        ihl (Frame.left v sz r :: ctx) w hord.2.2.1 hwl hkey
      rw [if_pos (by simp [ltCmp, h1]), hloc]
      exact ⟨loc, rfl, hlockey⟩
    · by_cases h2 : ext v < key
      · have hwr : w ∈ inorder r := by
          rcases List.mem_append.mp hw with h | h
          · exact absurd (hkey ▸ hord.1 w h) (not_lt.mpr (le_of_lt h2))
          · rcases List.mem_cons.mp h with h | h
            · rw [h] at hkey
              exact absurd (hkey ▸ h2) (lt_irrefl (ext v))
            · exact h
        obtain ⟨loc, hloc, hlockey⟩ :=
          ihr (Frame.right l v sz :: ctx) w hord.2.2.2 hwr hkey
        rw [if_neg (by simp [ltCmp, h1]), if_pos (by simp [ltCmp, h2]), hloc]
        exact ⟨loc, rfl, hlockey⟩
      · rw [if_neg (by simp [ltCmp, h1]), if_neg (by simp [ltCmp, h2])]
        exact ⟨(⟨l, v, sz, r⟩, ctx), rfl, le_antisymm (not_lt.mp h1) (not_lt.mp h2)⟩

theorem insert_descent_dup {K V : Type} [LinearOrder K] (ext : V → K) (value : V)
    (t : STree V) :
    ∀ (ctx : List (Frame V)) (w : V), Ordered ext t → w ∈ inorder t →
      ext w = ext value →
      insert_descent (ltCmp K) ext value t ctx = none := by
  induction t with
  | nil =>
    intro ctx w _ hw _
    simp [inorder] at hw
  | node l v sz r ihl ihr =>
    intro ctx w hord hw hkey
    rw [ordered_node_iff] at hord
    rw [inorder] at hw
    rw [insert_descent.eq_def]
    dsimp only
    by_cases h1 : ext value < ext v
    · have hwl : w ∈ inorder l := by
        rcases List.mem_append.mp hw with h | h
        · exact h
        · rcases List.mem_cons.mp h with h | h
          · rw [h] at hkey
            exact absurd (hkey ▸ h1) (lt_irrefl (ext v))
          · exact absurd (hkey ▸ hord.2.1 w h) (not_lt.mpr (le_of_lt h1))
      rw [if_pos (by simp [ltCmp, h1])]
      cases l with
      | nil => simp [inorder] at hwl
      | node a b c d =>
        exact ihl (Frame.left v sz r :: ctx) w hord.2.2.1 hwl hkey
    · by_cases h2 : ext v < ext value
      · have hwr : w ∈ inorder r := by
          rcases List.mem_append.mp hw with h | h
          · exact absurd (hkey ▸ hord.1 w h) (not_lt.mpr (le_of_lt h2))
          · rcases List.mem_cons.mp h with h | h
            · rw [h] at hkey
              exact absurd (hkey ▸ h2) (lt_irrefl (ext v))
            · exact h
        rw [if_neg (by simp [ltCmp, h1]), if_pos (by simp [ltCmp, h2])]
        cases r with
        | nil => simp [inorder] at hwr
        | node a b c d =>
          exact ihr (Frame.right l v sz :: ctx) w hord.2.2.2 hwr hkey
      · rw [if_neg (by simp [ltCmp, h1]), if_neg (by simp [ltCmp, h2])]

theorem insert_tree_dup {K V : Type} [LinearOrder K] (ext : V → K)
    (tree : splay_tree_base V) (value : V) (hord : Ordered ext tree.root)
    (w : V) (hw : w ∈ inorder tree.root) (hkey : ext w = ext value) :
    insert_tree (ltCmp K) ext tree value = (none, tree) := by
  obtain ⟨root⟩ := tree
  cases root with
  | nil => simp [inorder] at hw
  | node a b c d =>
    show insert_tree (ltCmp K) ext ⟨.node a b c d⟩ value = _
    rw [insert_tree.eq_def]
    dsimp only
    rw [insert_subtree, insert_descent_dup ext value (.node a b c d) [] w hord hw hkey]

/-!
Content characterization of the bound searches: the lower bound is the first
in-order element not less than the key (everything before it is less), the
upper bound the first element strictly greater.
-/

theorem lower_bound_content {K V : Type} [LinearOrder K] (ext : V → K) (key : K)
    (T : STree V) (t : STree V) :
    ∀ (ctx : List (Frame V)) (best : Option (NodeT V × List (Frame V))),
      Ordered ext t →
      plugT t ctx = T →
      (∀ x ∈ ctxL ctx, ext x < key) →
      (best = none → ctxR ctx = []) →
      (∀ loc0, best = some loc0 → ¬(ext loc0.1.v < key) ∧
        ctxL loc0.2 ++ inorder loc0.1.l = ctxL ctx ++ inorder t) →
      (lower_bound_subtree (ltCmp K) ext key t ctx best = none →
          ∀ x ∈ inorder T, ext x < key) ∧
      (∀ loc, lower_bound_subtree (ltCmp K) ext key t ctx best = some loc →
          ¬(ext loc.1.v < key) ∧
          (∀ x ∈ ctxL loc.2 ++ inorder loc.1.l, ext x < key)) := by
  induction t with
  | nil =>
    intro ctx best _ hplug hctxL hnone hsome
    constructor
    · intro hres x hx
      rw [lower_bound_subtree] at hres
      rw [← hplug, inorder_plugT, inorder, hnone hres] at hx
      simp at hx
      exact hctxL x hx
    · intro loc hres
      rw [lower_bound_subtree] at hres
      obtain ⟨hv, heq⟩ := hsome loc hres
      refine ⟨hv, ?_⟩
      rw [heq]
      intro x hx
      simp [inorder] at hx
      exact hctxL x hx
  | node l v sz r ihl ihr =>
    intro ctx best hord hplug hctxL hnone hsome
    rw [ordered_node_iff] at hord
    rw [lower_bound_subtree]
    by_cases h1 : ext v < key
    · rw [if_pos (by simp [ltCmp, h1])]
      refine ihr (Frame.right l v sz :: ctx) best hord.2.2.2 hplug ?_ ?_ ?_
      · intro x hx
        rw [ctxL] at hx
        rcases List.mem_append.mp hx with h | h
        · exact hctxL x h
        · rcases List.mem_append.mp h with h | h
          · exact lt_trans (hord.1 x h) h1
          · rw [List.mem_singleton.mp h]
            exact h1
      · intro hb
        rw [ctxR]
        exact hnone hb
      · intro loc0 h0
        obtain ⟨ha, hb⟩ := hsome loc0 h0
        refine ⟨ha, ?_⟩
        rw [hb, ctxL, inorder]
        simp
    · rw [if_neg (by simp [ltCmp, h1])]
      refine ihl (Frame.left v sz r :: ctx) _ hord.2.2.1 hplug ?_ (by simp) ?_
      · intro x hx
        rw [ctxL] at hx
        exact hctxL x hx
      · intro loc0 h0
        cases h0
        exact ⟨h1, rfl⟩

theorem upper_bound_content {K V : Type} [LinearOrder K] (ext : V → K) (key : K)
    (T : STree V) (t : STree V) :
    ∀ (ctx : List (Frame V)) (best : Option (NodeT V × List (Frame V))),
      Ordered ext t →
      plugT t ctx = T →
      (∀ x ∈ ctxL ctx, ¬(key < ext x)) →
      (best = none → ctxR ctx = []) →
      (∀ loc0, best = some loc0 → key < ext loc0.1.v ∧
        ctxL loc0.2 ++ inorder loc0.1.l = ctxL ctx ++ inorder t) →
      (upper_bound_subtree (ltCmp K) ext key t ctx best = none →
          ∀ x ∈ inorder T, ¬(key < ext x)) ∧
      (∀ loc, upper_bound_subtree (ltCmp K) ext key t ctx best = some loc →
          key < ext loc.1.v ∧
          (∀ x ∈ ctxL loc.2 ++ inorder loc.1.l, ¬(key < ext x))) := by
  induction t with
  | nil =>
    intro ctx best _ hplug hctxL hnone hsome
    constructor
    · intro hres x hx
      rw [upper_bound_subtree] at hres
      rw [← hplug, inorder_plugT, inorder, hnone hres] at hx
      simp at hx
      exact hctxL x hx
    · intro loc hres
      rw [upper_bound_subtree] at hres
      obtain ⟨hv, heq⟩ := hsome loc hres
      refine ⟨hv, ?_⟩
      rw [heq]
      intro x hx
      simp [inorder] at hx
      exact hctxL x hx
  | node l v sz r ihl ihr =>
    intro ctx best hord hplug hctxL hnone hsome
    rw [ordered_node_iff] at hord
    rw [upper_bound_subtree]
    by_cases h1 : key < ext v
    · rw [if_pos (by simp [ltCmp, h1])]
      refine ihl (Frame.left v sz r :: ctx) _ hord.2.2.1 hplug ?_ (by simp) ?_
      · intro x hx
        rw [ctxL] at hx
        exact hctxL x hx
      · intro loc0 h0
        cases h0
        exact ⟨h1, rfl⟩
    · rw [if_neg (by simp [ltCmp, h1])]
      refine ihr (Frame.right l v sz :: ctx) best hord.2.2.2 hplug ?_ ?_ ?_
      · intro x hx
        rw [ctxL] at hx
        rcases List.mem_append.mp hx with h | h
        · exact hctxL x h
        · rcases List.mem_append.mp h with h | h
          · intro hk
            exact h1 (lt_trans hk (hord.1 x h))
          · rw [List.mem_singleton.mp h]
            exact h1
      · intro hb
        rw [ctxR]
        exact hnone hb
      · intro loc0 h0
        obtain ⟨ha, hb⟩ := hsome loc0 h0
        refine ⟨ha, ?_⟩
        rw [hb, ctxL, inorder]
        simp

/-!
Content and size correctness of the four split operations.
-/

theorem split_lower_impl_spec {K V : Type} [LinearOrder K] (ext : V → K) (key : K)
    (T : STree V) (hsz : sizeOK T = true) (hord : Ordered ext T) :
    inorder (split_lower_impl (ltCmp K) ext T key).1 ++
        inorder (split_lower_impl (ltCmp K) ext T key).2 = inorder T ∧
      (∀ x ∈ inorder (split_lower_impl (ltCmp K) ext T key).1, ext x < key) ∧
      (∀ x ∈ inorder (split_lower_impl (ltCmp K) ext T key).2, ¬(ext x < key)) ∧
      sizeOK (split_lower_impl (ltCmp K) ext T key).1 = true ∧
      sizeOK (split_lower_impl (ltCmp K) ext T key).2 = true := by
  cases hT : T with
  | nil => simp [split_lower_impl, inorder, sizeOK]
  | node a b c d =>
    rw [← hT]
    have hcontent := lower_bound_content ext key T T [] none hord rfl
      (by simp [ctxL]) (fun _ => rfl) (by simp)
    rw [split_lower_impl.eq_def, hT]
    dsimp only
    cases hlb : lower_bound_subtree (ltCmp K) ext key (STree.node a b c d) [] none with
    | none =>
      rw [← hT] at hlb
      simp only [← hT]
      refine ⟨by simp [inorder], ?_, by simp [inorder], hsz, rfl⟩
      intro x hx
      exact hcontent.1 (hT ▸ hlb) x hx
    | some loc =>
      rw [← hT] at hlb
      have hgood : goodLoc T loc :=
        lower_bound_goodLoc (ltCmp K) ext key T T [] none hsz rfl rfl
          (by simp) loc hlb
      have hbound := hcontent.2 loc (hT ▸ hlb)
      obtain ⟨hv, hml, hmr⟩ := splay_node_spec loc.1 loc.2
      have hmok : nodeOK (splay_node loc.1 loc.2) = true :=
        splay_node_ok loc.1 loc.2 hgood.1 hgood.2.1
      have hsp := split_right_subtree_spec (splay_node loc.1 loc.2) hmok
      have hio : inorder (splay_node loc.1 loc.2).toTree = inorder T :=
        splay_inorder_of_goodLoc hgood
      rw [inorder_toTree] at hio
      have hpw := inorder_pairwise ext T hord
      rw [← hio] at hpw
      rw [List.pairwise_append] at hpw
      refine ⟨?_, ?_, ?_, hsp.2.2.1, hsp.2.2.2⟩
      · rw [hsp.1, hsp.2.1, ← hT, ← hio]
      · rw [hsp.1, hml]
        exact hbound.2
      · rw [hsp.2.1]
        intro x hx
        rcases List.mem_cons.mp hx with hx | hx
        · rw [hx, hv]
          exact hbound.1
        · have hlt : ext (splay_node loc.1 loc.2).v < ext x := by
            have := hpw.2.1
            rw [List.pairwise_cons] at this
            exact this.1 x hx
          rw [hv] at hlt
          intro hxk
          exact hbound.1 (lt_trans hlt hxk)

theorem split_upper_impl_spec {K V : Type} [LinearOrder K] (ext : V → K) (key : K)
    (T : STree V) (hsz : sizeOK T = true) (hord : Ordered ext T) :
    inorder (split_upper_impl (ltCmp K) ext T key).1 ++
        inorder (split_upper_impl (ltCmp K) ext T key).2 = inorder T ∧
      (∀ x ∈ inorder (split_upper_impl (ltCmp K) ext T key).1, ¬(key < ext x)) ∧
      (∀ x ∈ inorder (split_upper_impl (ltCmp K) ext T key).2, key < ext x) ∧
      sizeOK (split_upper_impl (ltCmp K) ext T key).1 = true ∧
      sizeOK (split_upper_impl (ltCmp K) ext T key).2 = true := by
  cases hT : T with
  | nil => simp [split_upper_impl, inorder, sizeOK]
  | node a b c d =>
    rw [← hT]
    have hcontent := upper_bound_content ext key T T [] none hord rfl
      (by simp [ctxL]) (fun _ => rfl) (by simp)
    rw [split_upper_impl.eq_def, hT]
    dsimp only
    cases hub : upper_bound_subtree (ltCmp K) ext key (STree.node a b c d) [] none with
    | none =>
      rw [← hT] at hub
      simp only [← hT]
      refine ⟨by simp [inorder], ?_, by simp [inorder], hsz, rfl⟩
      intro x hx
      exact hcontent.1 (hT ▸ hub) x hx
    | some loc =>
      rw [← hT] at hub
      have hgood : goodLoc T loc :=
        upper_bound_goodLoc (ltCmp K) ext key T T [] none hsz rfl rfl
          (by simp) loc hub
      have hbound := hcontent.2 loc (hT ▸ hub)
      obtain ⟨hv, hml, hmr⟩ := splay_node_spec loc.1 loc.2
      have hmok : nodeOK (splay_node loc.1 loc.2) = true :=
        splay_node_ok loc.1 loc.2 hgood.1 hgood.2.1
      have hsp := split_right_subtree_spec (splay_node loc.1 loc.2) hmok
      have hio : inorder (splay_node loc.1 loc.2).toTree = inorder T :=
        splay_inorder_of_goodLoc hgood
      rw [inorder_toTree] at hio
      have hpw := inorder_pairwise ext T hord
      rw [← hio] at hpw
      rw [List.pairwise_append] at hpw
      refine ⟨?_, ?_, ?_, hsp.2.2.1, hsp.2.2.2⟩
      · rw [hsp.1, hsp.2.1, ← hT, ← hio]
      · rw [hsp.1, hml]
        exact hbound.2
      · rw [hsp.2.1]
        intro x hx
        rcases List.mem_cons.mp hx with hx | hx
        · rw [hx, hv]
          exact hbound.1
        · have hlt : ext (splay_node loc.1 loc.2).v < ext x := by
            have := hpw.2.1
            rw [List.pairwise_cons] at this
            exact this.1 x hx
          rw [hv] at hlt
          exact lt_trans hbound.1 hlt

theorem split_left_tree_spec {V : Type} (tree : splay_tree_base V)
    (loc : NodeT V × List (Frame V)) (hgood : goodLoc tree.root loc) :
    inorder (split_left_tree tree (some loc)).1.root =
        ctxL loc.2 ++ inorder loc.1.l ++ [loc.1.v] ∧
      inorder (split_left_tree tree (some loc)).2.root =
        inorder loc.1.r ++ ctxR loc.2 ∧
      inorder (split_left_tree tree (some loc)).1.root ++
        inorder (split_left_tree tree (some loc)).2.root = inorder tree.root ∧
      sizeOK (split_left_tree tree (some loc)).1.root = true ∧
      sizeOK (split_left_tree tree (some loc)).2.root = true := by
  obtain ⟨hv, hml, hmr⟩ := splay_node_spec loc.1 loc.2
  have hmok : nodeOK (splay_node loc.1 loc.2) = true :=
    splay_node_ok loc.1 loc.2 hgood.1 hgood.2.1
  have hsp := split_left_subtree_spec (splay_node loc.1 loc.2) hmok
  have hio : inorder (splay_node loc.1 loc.2).toTree = inorder tree.root :=
    splay_inorder_of_goodLoc hgood
  rw [inorder_toTree, hml, hmr, hv] at hio
  show inorder (split_left_subtree (splay_node loc.1 loc.2)).1 = _ ∧
    inorder (split_left_subtree (splay_node loc.1 loc.2)).2 = _ ∧ _ ∧ _ ∧ _
  rw [hsp.2.1, hsp.1, hml, hmr, hv]
  refine ⟨by simp, rfl, ?_, hsp.2.2.1, hsp.2.2.2⟩
  show inorder (split_left_subtree (splay_node loc.1 loc.2)).1 ++
      inorder (split_left_subtree (splay_node loc.1 loc.2)).2 = inorder tree.root
  rw [hsp.2.1, hsp.1, hml, hmr, hv, ← hio]
  simp

theorem split_right_tree_spec {V : Type} (tree : splay_tree_base V)
    (loc : NodeT V × List (Frame V)) (hgood : goodLoc tree.root loc) :
    inorder (split_right_tree tree (some loc)).1.root =
        ctxL loc.2 ++ inorder loc.1.l ∧
      inorder (split_right_tree tree (some loc)).2.root =
        loc.1.v :: (inorder loc.1.r ++ ctxR loc.2) ∧
      inorder (split_right_tree tree (some loc)).1.root ++
        inorder (split_right_tree tree (some loc)).2.root = inorder tree.root ∧
      sizeOK (split_right_tree tree (some loc)).1.root = true ∧
      sizeOK (split_right_tree tree (some loc)).2.root = true := by
  obtain ⟨hv, hml, hmr⟩ := splay_node_spec loc.1 loc.2
  have hmok : nodeOK (splay_node loc.1 loc.2) = true :=
    splay_node_ok loc.1 loc.2 hgood.1 hgood.2.1
  have hsp := split_right_subtree_spec (splay_node loc.1 loc.2) hmok
  have hio : inorder (splay_node loc.1 loc.2).toTree = inorder tree.root :=
    splay_inorder_of_goodLoc hgood
  rw [inorder_toTree, hml, hmr, hv] at hio
  show inorder (split_right_subtree (splay_node loc.1 loc.2)).1 = _ ∧
    inorder (split_right_subtree (splay_node loc.1 loc.2)).2 = _ ∧ _ ∧ _ ∧ _
  rw [hsp.2.1, hsp.1, hml, hmr, hv]
  refine ⟨rfl, by simp, ?_, hsp.2.2.1, hsp.2.2.2⟩
  show inorder (split_right_subtree (splay_node loc.1 loc.2)).1 ++
      inorder (split_right_subtree (splay_node loc.1 loc.2)).2 = inorder tree.root
  rw [hsp.2.1, hsp.1, hml, hmr, hv, ← hio]

/-!
The pointer graph of any represented subtree satisfies the bidirectional-link
invariant: each stored parent pointer leads to a node having this node as
exactly one child, and each stored child pointer leads to a node pointing
back.
-/

theorem graphOf_head {V : Type} (l : STree V) (pa : Option (List Bool))
    (a0 : List Bool) (h : l ≠ .nil) :
    ∃ lrec rest, graphOf l pa a0 = (a0, lrec) :: rest ∧ lrec.parent = pa := by
  cases l with
  | nil => exact absurd rfl h
  | node a b c d => exact ⟨_, _, rfl, rfl⟩

theorem ne_nil_of_mem_graphOf {V : Type} (t : STree V) (par : Option (List Bool))
    (addr : List Bool) (x : List Bool × NodeRec V) (h : x ∈ graphOf t par addr) :
    t ≠ .nil := by
  cases t with
  | nil => simp [graphOf] at h
  | node a b c d => simp

theorem graphOf_linksOK_aux {V : Type} (t : STree V) :
    ∀ (par : Option (List Bool)) (addr : List Bool)
      (G : List (List Bool × NodeRec V)),
      (∀ x ∈ graphOf t par addr, x ∈ G) →
      (∀ pa, par = some pa → ∃ prec, (pa, prec) ∈ G ∧
        ((prec.left = some addr ∧ prec.right ≠ some addr) ∨
         (prec.right = some addr ∧ prec.left ≠ some addr))) →
      ∀ a rec, (a, rec) ∈ graphOf t par addr →
        (∀ pa, rec.parent = some pa → ∃ prec, (pa, prec) ∈ G ∧
          ((prec.left = some a ∧ prec.right ≠ some a) ∨
           (prec.right = some a ∧ prec.left ≠ some a))) ∧
        (∀ la, rec.left = some la → ∃ lrec, (la, lrec) ∈ G ∧ lrec.parent = some a) ∧
        (∀ ra, rec.right = some ra → ∃ rrec, (ra, rrec) ∈ G ∧ rrec.parent = some a) := by
  induction t with
  | nil =>
    intro par addr G _ _ a rec h
    simp [graphOf] at h
  | node l v sz r ihl ihr =>
    intro par addr G hsub hpar a rec h
    rw [graphOf] at h
    rcases List.mem_cons.mp h with h | h
    · rw [Prod.mk.injEq] at h
      obtain ⟨ha, hrec⟩ := h
      subst ha
      constructor
      · intro pa hpa
        rw [hrec] at hpa
        simp only at hpa
        exact hpar pa hpa
      · constructor
        · intro la hla
          rw [hrec] at hla
          simp only at hla
          by_cases hnil : isNil l = true
          · rw [if_pos hnil] at hla
            cases hla
          · rw [if_neg hnil] at hla
            have hla2 := Option.some.inj hla
            obtain ⟨lrec, rest, hg, hp⟩ := graphOf_head l (some a) (a ++ [false])
              (by intro hln; rw [hln] at hnil; exact hnil rfl)
            refine ⟨lrec, ?_, by rw [hp]⟩
            apply hsub
            rw [graphOf, hg, ← hla2]
            simp
        · intro ra hra
          rw [hrec] at hra
          simp only at hra
          by_cases hnil : isNil r = true
          · rw [if_pos hnil] at hra
            cases hra
          · rw [if_neg hnil] at hra
            have hra2 := Option.some.inj hra
            obtain ⟨rrec, rest, hg, hp⟩ := graphOf_head r (some a) (a ++ [true])
              (by intro hrn; rw [hrn] at hnil; exact hnil rfl)
            refine ⟨rrec, ?_, by rw [hp]⟩
            apply hsub
            rw [graphOf, hg, ← hra2]
            simp
    · rcases List.mem_append.mp h with h | h
      · have hlnil : l ≠ .nil := ne_nil_of_mem_graphOf l _ _ _ h
        refine ihl (some addr) (addr ++ [false]) G ?_ ?_ a rec h
        · intro x hx
          apply hsub
          rw [graphOf]
          exact List.mem_cons_of_mem _ (List.mem_append_left _ hx)
        · intro pa hpa
          have hpa2 := Option.some.inj hpa
          refine ⟨⟨v, sz, par,
            if isNil l then none else some (addr ++ [false]),
            if isNil r then none else some (addr ++ [true])⟩, ?_, ?_⟩
          · apply hsub
            rw [graphOf, hpa2]
            simp
          · left
            constructor
            · simp [show isNil l = false by
                cases l with
                | nil => exact absurd rfl hlnil
                | node a1 b1 c1 d1 => rfl]
            · by_cases hnil : isNil r = true
              · simp [hnil]
              · simp [hnil]
      · have hrnil : r ≠ .nil := ne_nil_of_mem_graphOf r _ _ _ h
        refine ihr (some addr) (addr ++ [true]) G ?_ ?_ a rec h
        · intro x hx
          apply hsub
          rw [graphOf]
          exact List.mem_cons_of_mem _ (List.mem_append_right _ hx)
        · intro pa hpa
          have hpa2 := Option.some.inj hpa
          refine ⟨⟨v, sz, par,
            if isNil l then none else some (addr ++ [false]),
            if isNil r then none else some (addr ++ [true])⟩, ?_, ?_⟩
          · apply hsub
            rw [graphOf, hpa2]
            simp
          · right
            constructor
            · simp [show isNil r = false by
                cases r with
                | nil => exact absurd rfl hrnil
                | node a1 b1 c1 d1 => rfl]
            · by_cases hnil : isNil l = true
              · simp [hnil]
              · simp [hnil]

theorem graphOf_linksOK {V : Type} (t : STree V) : linksOK (graphOf t none []) := by
  intro a rec hmem
  exact graphOf_linksOK_aux t none [] (graphOf t none [])
    (fun x hx => hx) (by simp) a rec hmem

/-!
Size-consistency is preserved by every public operation, for any comparator
and extractor.
-/

theorem sizeOK_singleton {V : Type} (v : V) :
    sizeOK (STree.node .nil v 1 .nil) = true := by
  simp [sizeOK, realSize]

theorem insert_tree_sizeOK {K V : Type} (cmp : K → K → Bool) (ext : V → K)
    (tree : splay_tree_base V) (value : V) (h : sizeOK tree.root = true) :
    sizeOK (insert_tree cmp ext tree value).2.root = true := by
  obtain ⟨root⟩ := tree
  cases root with
  | nil => exact sizeOK_singleton value
  | node a b c d =>
    cases hins : insert_subtree cmp ext value (.node a b c d) with
    | none =>
      rw [insert_tree.eq_def]
      dsimp only
      rw [hins]
      exact h
    | some loc =>
      rw [insert_tree.eq_def]
      dsimp only
      rw [hins]
      dsimp only
      rw [insert_subtree] at hins
      cases hdesc : insert_descent cmp ext value (.node a b c d) [] with
      | none =>
        rw [hdesc] at hins
        cases hins
      | some loc0 =>
        rw [hdesc] at hins
        dsimp only at hins
        cases hins
        obtain ⟨hleaf, hctx⟩ :=
          insert_descent_spec cmp ext value (.node a b c d) [] h rfl loc0 hdesc
        have hnok : nodeOK loc0.1 = true := by
          rw [hleaf]
          simp [nodeOK, realSize, sizeOK]
        rw [nodeOK_toTree]
        exact splay_node_ok loc0.1 (insert_bump loc0.2) hnok
          (by rw [ctxOK_insert_bump]; exact hctx)

theorem find_tree_sizeOK {K V : Type} (cmp : K → K → Bool) (ext : V → K)
    (tree : splay_tree_base V) (key : K) (h : sizeOK tree.root = true) :
    sizeOK (find_tree cmp ext tree key).2.root = true := by
  rw [find_tree.eq_def]
  cases hcand : find_candidate_subtree cmp ext key tree.root [] with
  | none => exact h
  | some loc =>
    dsimp only
    have hgood : goodLoc tree.root loc :=
      find_candidate_goodLoc cmp ext key tree.root tree.root [] h rfl rfl loc hcand
    have hs : sizeOK (splay_node loc.1 loc.2).toTree = true :=
      splay_sizeOK_of_goodLoc hgood
    by_cases hc : (cmp (ext (splay_node loc.1 loc.2).v) key ||
        cmp key (ext (splay_node loc.1 loc.2).v)) = true
    · rw [if_pos hc]
      exact hs
    · rw [if_neg hc]
      exact hs

theorem find_tree_fst_nodeOK {K V : Type} (cmp : K → K → Bool) (ext : V → K)
    (tree : splay_tree_base V) (key : K) (m : NodeT V) (h : sizeOK tree.root = true)
    (hm : (find_tree cmp ext tree key).1 = some m) : nodeOK m = true := by
  rw [find_tree.eq_def] at hm
  cases hcand : find_candidate_subtree cmp ext key tree.root [] with
  | none =>
    rw [hcand] at hm
    cases hm
  | some loc =>
    rw [hcand] at hm
    dsimp only at hm
    have hgood : goodLoc tree.root loc :=
      find_candidate_goodLoc cmp ext key tree.root tree.root [] h rfl rfl loc hcand
    by_cases hc : (cmp (ext (splay_node loc.1 loc.2).v) key ||
        cmp key (ext (splay_node loc.1 loc.2).v)) = true
    · rw [if_pos hc] at hm
      cases hm
    · rw [if_neg hc] at hm
      cases hm
      exact splay_node_ok loc.1 loc.2 hgood.1 hgood.2.1

theorem lower_bound_tree_sizeOK {K V : Type} (cmp : K → K → Bool) (ext : V → K)
    (tree : splay_tree_base V) (key : K) (h : sizeOK tree.root = true) :
    sizeOK (lower_bound_tree cmp ext tree key).2.root = true := by
  rw [lower_bound_tree.eq_def]
  cases hlb : lower_bound_subtree cmp ext key tree.root [] none with
  | none => exact h
  | some loc =>
    dsimp only
    have hgood : goodLoc tree.root loc :=
      lower_bound_goodLoc cmp ext key tree.root tree.root [] none h rfl rfl
        (by simp) loc hlb
    exact splay_sizeOK_of_goodLoc hgood

theorem upper_bound_tree_sizeOK {K V : Type} (cmp : K → K → Bool) (ext : V → K)
    (tree : splay_tree_base V) (key : K) (h : sizeOK tree.root = true) :
    sizeOK (upper_bound_tree cmp ext tree key).2.root = true := by
  rw [upper_bound_tree.eq_def]
  cases hub : upper_bound_subtree cmp ext key tree.root [] none with
  | none => exact h
  | some loc =>
    dsimp only
    have hgood : goodLoc tree.root loc :=
      upper_bound_goodLoc cmp ext key tree.root tree.root [] none h rfl rfl
        (by simp) loc hub
    exact splay_sizeOK_of_goodLoc hgood

theorem order_statistic_subtree_goodLoc {V : Type} (t : STree V) (n : Nat)
    (loc : NodeT V × List (Frame V)) (h : sizeOK t = true)
    (hres : order_statistic_subtree t n = some loc) : goodLoc t loc := by
  cases t with
  | nil => simp [order_statistic_subtree] at hres
  | node a b c d =>
    rw [order_statistic_subtree] at hres
    by_cases hn : c ≤ n
    · rw [if_pos hn] at hres
      cases hres
    · rw [if_neg hn] at hres
      exact order_statistic_go_goodLoc (.node a b c d) (.node a b c d) n [] h rfl
        rfl loc hres

theorem order_statistic_tree_sizeOK {V : Type} (tree : splay_tree_base V) (n : Nat)
    (h : sizeOK tree.root = true) :
    sizeOK (order_statistic_tree tree n).2.root = true := by
  rw [order_statistic_tree.eq_def]
  cases hres : order_statistic_subtree tree.root n with
  | none => exact h
  | some loc =>
    dsimp only
    exact splay_sizeOK_of_goodLoc (order_statistic_subtree_goodLoc tree.root n loc h hres)

theorem order_statistic_tree_fst_nodeOK {V : Type} (tree : splay_tree_base V)
    (n : Nat) (m : NodeT V) (h : sizeOK tree.root = true)
    (hm : (order_statistic_tree tree n).1 = some m) : nodeOK m = true := by
  rw [order_statistic_tree.eq_def] at hm
  cases hres : order_statistic_subtree tree.root n with
  | none =>
    rw [hres] at hm
    cases hm
  | some loc =>
    rw [hres] at hm
    dsimp only at hm
    cases hm
    have hgood := order_statistic_subtree_goodLoc tree.root n loc h hres
    exact splay_node_ok loc.1 loc.2 hgood.1 hgood.2.1

theorem erase_tree_root_sizeOK {V : Type} (m : NodeT V) (h : nodeOK m = true) :
    sizeOK (erase_tree m []).root = true := by
  rw [nodeOK_iff] at h
  show sizeOK (merge_subtrees m.l m.r) = true
  exact (merge_subtrees_spec m.l m.r h.2.1 h.2.2).2

theorem split_lower_impl_sizeOK {K V : Type} (cmp : K → K → Bool) (ext : V → K)
    (T : STree V) (key : K) (h : sizeOK T = true) :
    sizeOK (split_lower_impl cmp ext T key).1 = true ∧
      sizeOK (split_lower_impl cmp ext T key).2 = true := by
  cases T with
  | nil => exact ⟨rfl, rfl⟩
  | node a b c d =>
    rw [split_lower_impl.eq_def]
    dsimp only
    cases hlb : lower_bound_subtree cmp ext key (.node a b c d) [] none with
    | none => exact ⟨h, rfl⟩
    | some loc =>
      dsimp only
      have hgood : goodLoc (.node a b c d) loc :=
        lower_bound_goodLoc cmp ext key (.node a b c d) (.node a b c d) [] none h
          rfl rfl (by simp) loc hlb
      have hsp := split_right_subtree_spec (splay_node loc.1 loc.2)
        (splay_node_ok loc.1 loc.2 hgood.1 hgood.2.1)
      exact ⟨hsp.2.2.1, hsp.2.2.2⟩

theorem split_upper_impl_sizeOK {K V : Type} (cmp : K → K → Bool) (ext : V → K)
    (T : STree V) (key : K) (h : sizeOK T = true) :
    sizeOK (split_upper_impl cmp ext T key).1 = true ∧
      sizeOK (split_upper_impl cmp ext T key).2 = true := by
  cases T with
  | nil => exact ⟨rfl, rfl⟩
  | node a b c d =>
    rw [split_upper_impl.eq_def]
    dsimp only
    cases hub : upper_bound_subtree cmp ext key (.node a b c d) [] none with
    | none => exact ⟨h, rfl⟩
    | some loc =>
      dsimp only
      have hgood : goodLoc (.node a b c d) loc :=
        upper_bound_goodLoc cmp ext key (.node a b c d) (.node a b c d) [] none h
          rfl rfl (by simp) loc hub
      have hsp := split_right_subtree_spec (splay_node loc.1 loc.2)
        (splay_node_ok loc.1 loc.2 hgood.1 hgood.2.1)
      exact ⟨hsp.2.2.1, hsp.2.2.2⟩

theorem split_left_tree_root_sizeOK {V : Type} (tree : splay_tree_base V)
    (m : NodeT V) (h : nodeOK m = true) :
    sizeOK (split_left_tree tree (some (m, []))).1.root = true ∧
      sizeOK (split_left_tree tree (some (m, []))).2.root = true := by
  have hsp := split_left_subtree_spec m h
  exact ⟨hsp.2.2.1, hsp.2.2.2⟩

theorem split_right_tree_root_sizeOK {V : Type} (tree : splay_tree_base V)
    (m : NodeT V) (h : nodeOK m = true) :
    sizeOK (split_right_tree tree (some (m, []))).1.root = true ∧
      sizeOK (split_right_tree tree (some (m, []))).2.root = true := by
  have hsp := split_right_subtree_spec m h
  exact ⟨hsp.2.2.1, hsp.2.2.2⟩

theorem poolGet_sizeOK {V : Type} (p : List (splay_tree_base V))
    (hp : ∀ t ∈ p, sizeOK t.root = true) (i : Nat) :
    sizeOK (poolGet p i).root = true := by
  rw [poolGet, List.getD_eq_getElem?_getD]
  cases hg : p[i]? with
  | none => rfl
  | some t =>
    simp only [hg, Option.getD_some]
    exact hp t (List.getElem?_mem hg)

theorem pool_set_sizeOK {V : Type} (p : List (splay_tree_base V)) (i : Nat)
    (a : splay_tree_base V) (hp : ∀ t ∈ p, sizeOK t.root = true)
    (ha : sizeOK a.root = true) :
    ∀ t ∈ p.set i a, sizeOK t.root = true := by
  intro t ht
  rcases List.mem_or_eq_of_mem_set ht with h | h
  · exact hp t h
  · rw [h]
    exact ha

theorem stepOp_sizeOK {K V : Type} (cmp : K → K → Bool) (ext : V → K)
    (p : List (splay_tree_base V)) (op : Op K V)
    (hp : ∀ t ∈ p, sizeOK t.root = true) :
    ∀ t ∈ stepOp cmp ext p op, sizeOK t.root = true := by
  cases op with
  | insertOp i v =>
    exact pool_set_sizeOK p i _ hp
      (insert_tree_sizeOK cmp ext (poolGet p i) v (poolGet_sizeOK p hp i))
  | insertPosOp i v =>
    exact pool_set_sizeOK p i _ hp
      ((merge_subtrees_spec (poolGet p i).root (.node .nil v 1 .nil)
        (poolGet_sizeOK p hp i) (sizeOK_singleton v)).2)
  | findOp i k =>
    exact pool_set_sizeOK p i _ hp
      (find_tree_sizeOK cmp ext (poolGet p i) k (poolGet_sizeOK p hp i))
  | lowerBoundOp i k =>
    exact pool_set_sizeOK p i _ hp
      (lower_bound_tree_sizeOK cmp ext (poolGet p i) k (poolGet_sizeOK p hp i))
  | upperBoundOp i k =>
    exact pool_set_sizeOK p i _ hp
      (upper_bound_tree_sizeOK cmp ext (poolGet p i) k (poolGet_sizeOK p hp i))
  | orderStatisticOp i n =>
    exact pool_set_sizeOK p i _ hp
      (order_statistic_tree_sizeOK (poolGet p i) n (poolGet_sizeOK p hp i))
  | eraseFoundOp i k =>
    rw [stepOp]
    cases hf : find_tree cmp ext (poolGet p i) k with
    | mk fst snd =>
      cases fst with
      | none =>
        dsimp only
        refine pool_set_sizeOK p i snd hp ?_
        have := find_tree_sizeOK cmp ext (poolGet p i) k (poolGet_sizeOK p hp i)
        rw [hf] at this
        exact this
      | some m =>
        dsimp only
        refine pool_set_sizeOK p i _ hp (erase_tree_root_sizeOK m ?_)
        exact find_tree_fst_nodeOK cmp ext (poolGet p i) k m (poolGet_sizeOK p hp i)
          (by rw [hf])
  | eraseAtOp i n =>
    rw [stepOp]
    cases hf : order_statistic_tree (poolGet p i) n with
    | mk fst snd =>
      cases fst with
      | none =>
        dsimp only
        refine pool_set_sizeOK p i snd hp ?_
        have := order_statistic_tree_sizeOK (poolGet p i) n (poolGet_sizeOK p hp i)
        rw [hf] at this
        exact this
      | some m =>
        dsimp only
        refine pool_set_sizeOK p i _ hp (erase_tree_root_sizeOK m ?_)
        exact order_statistic_tree_fst_nodeOK (poolGet p i) n m (poolGet_sizeOK p hp i)
          (by rw [hf])
  | mergeIntoOp i j =>
    have hm := merge_subtrees_spec (poolGet p i).root (poolGet p j).root
      (poolGet_sizeOK p hp i) (poolGet_sizeOK p hp j)
    exact pool_set_sizeOK _ j _ (pool_set_sizeOK p i _ hp hm.2) rfl
  | splitLowerOp i k el er =>
    have hs := split_lower_impl_sizeOK cmp ext (poolGet p i).root k
      (poolGet_sizeOK p hp i)
    exact pool_set_sizeOK _ er _
      (pool_set_sizeOK _ el _ (pool_set_sizeOK p i _ hp rfl) hs.1) hs.2
  | splitUpperOp i k el er =>
    have hs := split_upper_impl_sizeOK cmp ext (poolGet p i).root k
      (poolGet_sizeOK p hp i)
    exact pool_set_sizeOK _ er _
      (pool_set_sizeOK _ el _ (pool_set_sizeOK p i _ hp rfl) hs.1) hs.2
  | splitLeftAtOp i n j =>
    rw [stepOp]
    cases hf : order_statistic_tree (poolGet p i) n with
    | mk fst snd =>
      cases fst with
      | none =>
        dsimp only
        have hsnd : sizeOK snd.root = true := by
          have := order_statistic_tree_sizeOK (poolGet p i) n (poolGet_sizeOK p hp i)
          rw [hf] at this
          exact this
        exact pool_set_sizeOK _ j _ (pool_set_sizeOK p i _ hp hsnd) rfl
      | some m =>
        dsimp only
        have hm : nodeOK m = true :=
          order_statistic_tree_fst_nodeOK (poolGet p i) n m (poolGet_sizeOK p hp i)
            (by rw [hf])
        have hs := split_left_tree_root_sizeOK snd m hm
        exact pool_set_sizeOK _ j _ (pool_set_sizeOK p i _ hp hs.1) hs.2
  | splitRightAtOp i n j =>
    rw [stepOp]
    cases hf : order_statistic_tree (poolGet p i) n with
    | mk fst snd =>
      cases fst with
      | none =>
        dsimp only
        have hsnd : sizeOK snd.root = true := by
          have := order_statistic_tree_sizeOK (poolGet p i) n (poolGet_sizeOK p hp i)
          rw [hf] at this
          exact this
        exact pool_set_sizeOK _ j _ (pool_set_sizeOK p i _ hp hsnd) rfl
      | some m =>
        dsimp only
        have hm : nodeOK m = true :=
          order_statistic_tree_fst_nodeOK (poolGet p i) n m (poolGet_sizeOK p hp i)
            (by rw [hf])
        have hs := split_right_tree_root_sizeOK snd m hm
        exact pool_set_sizeOK _ j _ (pool_set_sizeOK p i _ hp hs.1) hs.2
  | copyOp i j =>
    refine pool_set_sizeOK p j _ hp ?_
    show sizeOK (copy_subtree (poolGet p i).root) = true
    rw [copy_subtree_eq]
    exact poolGet_sizeOK p hp i
  | clearOp i =>
    exact pool_set_sizeOK p i _ hp rfl
  | swapOp i j =>
    exact pool_set_sizeOK _ j _
      (pool_set_sizeOK p i _ hp (poolGet_sizeOK p hp j)) (poolGet_sizeOK p hp i)

theorem runOps_sizeOK {K V : Type} (cmp : K → K → Bool) (ext : V → K)
    (ops : List (Op K V)) :
    ∀ (p : List (splay_tree_base V)), (∀ t ∈ p, sizeOK t.root = true) →
      ∀ t ∈ runOps cmp ext p ops, sizeOK t.root = true := by
  induction ops with
  | nil =>
    intro p hp
    exact hp
  | cons op rest ih =>
    intro p hp
    exact ih (stepOp cmp ext p op) (stepOp_sizeOK cmp ext p op hp)

/-!
Claim theorems.
-/

/-- C1: the claim says `empty()` is true exactly when `size()` is `0`.  The
keyed container of `splay_tree.h` inverts this: its `empty()` body is `return
tree->root != nullptr;`, so on the empty tree (`size() = 0`) it answers
`false` and on a one-node tree (`size() = 1`) it answers `true` — contradicting
the claim, the spec and the repository's own test assertions.  The engine-level
`is_empty_tree` of `tree_impl.h` (used by the implicit variant) does satisfy
the claim, as the last four conjuncts show on the same trees. -/
theorem claim_C1_empty_is_inverted :
    splay_tree.empty (⟨.nil, fun v => v, ltCmp Int⟩ : splay_tree Int Int) = false ∧
      splay_tree.size (⟨.nil, fun v => v, ltCmp Int⟩ : splay_tree Int Int) = 0 ∧
      splay_tree.empty
        (⟨.node .nil 1 1 .nil, fun v => v, ltCmp Int⟩ : splay_tree Int Int) = true ∧
      splay_tree.size
        (⟨.node .nil 1 1 .nil, fun v => v, ltCmp Int⟩ : splay_tree Int Int) = 1 ∧
      is_empty_tree (⟨.nil⟩ : splay_tree_base Int) = true ∧
      get_size_tree (⟨.nil⟩ : splay_tree_base Int) = 0 ∧
      is_empty_tree (⟨.node .nil 1 1 .nil⟩ : splay_tree_base Int) = false ∧
      get_size_tree (⟨.node .nil 1 1 .nil⟩ : splay_tree_base Int) = 1 :=
  ⟨rfl, rfl, rfl, rfl, rfl, rfl, rfl, rfl⟩

/-- C2: the claim says that after `clear()` the container's root reference is
empty.  `splay_tree::clear` (`splay_tree.h:727`) deallocates every node
(second conjunct: the single node, value `1`, is destroyed) but never assigns
the `root` member, so on a one-node tree the root reference afterwards still
holds the destroyed node (first conjunct) — it is dangling, not empty,
contradicting the claim, the spec and the repository's own
`test_clear_tree` assertions.  The engine-level `clear_tree` and the implicit
variant's `clear` do null the root (last two conjuncts). -/
theorem claim_C2_clear_keeps_root :
    (splay_tree.clear
        (⟨.node .nil 1 1 .nil, fun v => v, ltCmp Int⟩ : splay_tree Int Int)).1.root =
      STree.node .nil 1 1 .nil ∧
      (splay_tree.clear
        (⟨.node .nil 1 1 .nil, fun v => v, ltCmp Int⟩ : splay_tree Int Int)).2 = [1] ∧
      (clear_tree (⟨.node .nil 1 1 .nil⟩ : splay_tree_base Int)).1.root = .nil ∧
      (implicit_splay_tree.clear ⟨(⟨.node .nil 1 1 .nil⟩ : splay_tree_base Int)⟩).1.impl.root =
        .nil :=
  ⟨rfl, rfl, rfl, rfl⟩

/-- C4 counterexample: the claim says `swap` also exchanges the two keyed
containers' comparator state.  On two empty containers whose comparators
differ observably at the argument pair `(0, 1)` — one compares by `<`, the
other constantly answers `false` — the first container still answers `true`
at `(0, 1)` after the swap, so it kept its own comparator instead of
receiving the other's. -/
theorem claim_C4_counterexample :
    ((splay_tree.swap (⟨.nil, fun v => v, ltCmp Int⟩ : splay_tree Int Int)
        ⟨.nil, fun v => v, fun _ _ => false⟩).1.comparator 0 1 = true) ∧
      ((⟨.nil, fun v => v, fun _ _ => false⟩ : splay_tree Int Int).comparator 0 1 = false) :=
  ⟨rfl, rfl⟩

/-- C4 (amended): `swap` exchanges the two containers' root references in
constant time, but leaves each container's comparator and extractor members
in place — they are not exchanged (the member body is exactly
`std::swap(tree->root, other.root);`).  The engine-level `swap_trees`
exchanges the root references of the base containers, which hold no
comparator state. -/
theorem claim_C4_swap_roots_only {K V : Type} (a b : splay_tree K V) :
    (splay_tree.swap a b).1.root = b.root ∧
      (splay_tree.swap a b).2.root = a.root ∧
      (splay_tree.swap a b).1.extractor = a.extractor ∧
      (splay_tree.swap a b).1.comparator = a.comparator ∧
      (splay_tree.swap a b).2.extractor = b.extractor ∧
      (splay_tree.swap a b).2.comparator = b.comparator ∧
      swap_trees (⟨a.root⟩ : splay_tree_base V) ⟨b.root⟩ = (⟨b.root⟩, ⟨a.root⟩) :=
  ⟨rfl, rfl, rfl, rfl, rfl, rfl, rfl⟩

/-- C5: after any sequence of public operations (keyed insert/find/bounds/
erase/merge/split-by-key, positional insert/order-statistic/split-at-node,
copy, clear, swap) run from empty containers, with an arbitrary comparator
and extractor, every resulting tree satisfies the size-consistency invariant
(every node's stored size field equals `1 + size(left) + size(right)`) and
its pointer graph satisfies the bidirectional-link invariant (a present
parent pointer leads to a node having this node as exactly one child, and
each present child pointer leads to a node whose parent pointer points
back). -/
theorem claim_C5_invariants_hold {K V : Type} (cmp : K → K → Bool) (ext : V → K)
    (ops : List (Op K V)) (m : Nat) :
    ∀ t ∈ runOps cmp ext (List.replicate m create_tree) ops,
      sizeOK t.root = true ∧ linksOK (graphOf t.root none []) := by
  intro t ht
  refine ⟨runOps_sizeOK cmp ext ops _ ?_ t ht, graphOf_linksOK t.root⟩
  intro t0 ht0
  rw [List.eq_of_mem_replicate ht0]
  rfl

/-- C5 witness: a concrete run (insert 2, insert 1, find 2 on one container)
whose resulting tree is checked to be a member of the run's result pool, with
the invariants obtained from the claim theorem. -/
theorem claim_C5_invariants_hold_witness :
    (runOps (ltCmp Int) (fun v => v) (List.replicate 1 create_tree)
        [Op.insertOp 0 2, Op.insertOp 0 1, Op.findOp 0 2]).getD 0 create_tree ∈
      runOps (ltCmp Int) (fun v => v) (List.replicate 1 create_tree)
        [Op.insertOp 0 2, Op.insertOp 0 1, Op.findOp 0 2] ∧
      (sizeOK ((runOps (ltCmp Int) (fun v => v) (List.replicate 1 create_tree)
          [Op.insertOp 0 2, Op.insertOp 0 1, Op.findOp 0 2]).getD 0 create_tree).root = true ∧
        linksOK (graphOf ((runOps (ltCmp Int) (fun v => v) (List.replicate 1 create_tree)
          [Op.insertOp 0 2, Op.insertOp 0 1, Op.findOp 0 2]).getD 0 create_tree).root
            none [])) :=
  ⟨by decide, claim_C5_invariants_hold (ltCmp Int) (fun v => v)
    [Op.insertOp 0 2, Op.insertOp 0 1, Op.findOp 0 2] 1 _ (by decide)⟩

/-- C8: merging two size-consistent trees (under the documented ordering
precondition, which the computation never checks and the statement does not
need): an empty side passes the other side through unchanged; otherwise — and
in fact always — the merged tree's in-order sequence is the left sequence
followed by the right sequence, the resulting size is the sum of the two
sizes, and the donor (right) container's root is nulled. -/
theorem claim_C8_merge {V : Type} (lhs rhs : splay_tree_base V)
    (hl : sizeOK lhs.root = true) (hr : sizeOK rhs.root = true) :
    (is_empty_tree lhs = true → (merge_trees lhs rhs).1.root = rhs.root) ∧
      (is_empty_tree rhs = true → (merge_trees lhs rhs).1.root = lhs.root) ∧
      inorder (merge_trees lhs rhs).1.root = inorder lhs.root ++ inorder rhs.root ∧
      get_size_tree (merge_trees lhs rhs).1 = get_size_tree lhs + get_size_tree rhs ∧
      (merge_trees lhs rhs).2.root = .nil := by
  have hspec := merge_subtrees_spec lhs.root rhs.root hl hr
  refine ⟨?_, ?_, hspec.1, ?_, rfl⟩
  · intro he
    have : lhs.root = .nil := by
      cases hroot : lhs.root with
      | nil => rfl
      | node a b c d =>
        rw [is_empty_tree, hroot] at he
        cases he
    show merge_subtrees lhs.root rhs.root = rhs.root
    rw [this, merge_subtrees_nil_left]
  · intro he
    have : rhs.root = .nil := by
      cases hroot : rhs.root with
      | nil => rfl
      | node a b c d =>
        rw [is_empty_tree, hroot] at he
        cases he
    show merge_subtrees lhs.root rhs.root = lhs.root
    rw [this, merge_subtrees_nil_right]
  · show ssz (merge_subtrees lhs.root rhs.root) = ssz lhs.root + ssz rhs.root
    rw [ssz_eq_realSize _ hspec.2, ssz_eq_realSize _ hl, ssz_eq_realSize _ hr,
      realSize_eq_length_inorder, realSize_eq_length_inorder,
      realSize_eq_length_inorder, hspec.1]
    simp

/-- C8 witness: merging the singleton trees `{1}` and `{2}`. -/
theorem claim_C8_merge_witness :
    (sizeOK (STree.node .nil (1 : Int) 1 .nil) = true ∧
      sizeOK (STree.node .nil (2 : Int) 1 .nil) = true) ∧
      ((is_empty_tree (⟨.node .nil 1 1 .nil⟩ : splay_tree_base Int) = true →
        (merge_trees (⟨.node .nil 1 1 .nil⟩ : splay_tree_base Int) ⟨.node .nil 2 1 .nil⟩).1.root =
          (⟨.node .nil 2 1 .nil⟩ : splay_tree_base Int).root) ∧
      (is_empty_tree (⟨.node .nil 2 1 .nil⟩ : splay_tree_base Int) = true →
        (merge_trees (⟨.node .nil 1 1 .nil⟩ : splay_tree_base Int) ⟨.node .nil 2 1 .nil⟩).1.root =
          (⟨.node .nil 1 1 .nil⟩ : splay_tree_base Int).root) ∧
      inorder (merge_trees (⟨.node .nil 1 1 .nil⟩ : splay_tree_base Int)
          ⟨.node .nil 2 1 .nil⟩).1.root =
        inorder (⟨.node .nil 1 1 .nil⟩ : splay_tree_base Int).root ++
          inorder (⟨.node .nil 2 1 .nil⟩ : splay_tree_base Int).root ∧
      get_size_tree (merge_trees (⟨.node .nil 1 1 .nil⟩ : splay_tree_base Int)
          ⟨.node .nil 2 1 .nil⟩).1 =
        get_size_tree (⟨.node .nil 1 1 .nil⟩ : splay_tree_base Int) +
          get_size_tree (⟨.node .nil 2 1 .nil⟩ : splay_tree_base Int) ∧
      (merge_trees (⟨.node .nil 1 1 .nil⟩ : splay_tree_base Int)
          ⟨.node .nil 2 1 .nil⟩).2.root = .nil) :=
  ⟨⟨by decide, by decide⟩,
    claim_C8_merge ⟨.node .nil 1 1 .nil⟩ ⟨.node .nil 2 1 .nil⟩ (by decide) (by decide)⟩

/-- C9: inserting a value whose extracted key is already present (it compares
equal to some stored value's key) into an ordered keyed tree is a no-op: the
result reports absent (`nullptr`) and the container — root, node structure,
size fields, comparator, extractor — is returned completely unchanged; no
splay or rotation happens because the descent ends in the equal-key branch
before any node is created. -/
theorem claim_C9_duplicate_insert {K V : Type} [LinearOrder K]
    (t : splay_tree K V) (value : V) (hcmp : t.comparator = ltCmp K)
    (hord : Ordered t.extractor t.root)
    (hdup : ∃ w ∈ inorder t.root, t.extractor w = t.extractor value) :
    t.insert value = (none, t) := by
  obtain ⟨root, ext0, cmp0⟩ := t
  simp only at hcmp hord hdup
  subst hcmp
  obtain ⟨w, hw, hkey⟩ := hdup
  simp only [splay_tree.insert]
  rw [insert_tree_dup ext0 ⟨root⟩ value hord w hw hkey]

/-- C9 witness: inserting `1` into the ordered one-node tree `{1}`. -/
theorem claim_C9_duplicate_insert_witness :
    ((⟨.node .nil 1 1 .nil, fun v => v, ltCmp Int⟩ : splay_tree Int Int).comparator = ltCmp Int ∧
      Ordered (fun v => v)
        ((⟨.node .nil 1 1 .nil, fun v => v, ltCmp Int⟩ : splay_tree Int Int).root)) ∧
      (⟨.node .nil 1 1 .nil, fun v => v, ltCmp Int⟩ : splay_tree Int Int).insert 1 =
        (none, (⟨.node .nil 1 1 .nil, fun v => v, ltCmp Int⟩ : splay_tree Int Int)) :=
  ⟨⟨rfl, by decide⟩,
    claim_C9_duplicate_insert ⟨.node .nil 1 1 .nil, fun v => v, ltCmp Int⟩ 1 rfl
      (by decide) ⟨1, by decide, rfl⟩⟩

/-- C10: the implicit (positional) `insert(value)` appends at the end of the
sequence: the new in-order sequence is the old one followed by `value`, the
size grows by one, and the newly created node sits at in-order rank `n` (the
old size). -/
theorem claim_C10_implicit_insert_appends {V : Type} (t : implicit_splay_tree V)
    (value : V) (h : sizeOK t.impl.root = true) :
    inorder (t.insert value).2.impl.root = inorder t.impl.root ++ [value] ∧
      (t.insert value).2.size = t.size + 1 ∧
      (inorder (t.insert value).2.impl.root)[t.size]? = some value := by
  have hone : sizeOK (STree.node .nil value 1 .nil) = true := sizeOK_singleton value
  have hspec := merge_subtrees_spec t.impl.root (.node .nil value 1 .nil) h hone
  have hio : inorder (t.insert value).2.impl.root =
      inorder t.impl.root ++ [value] := by
    show inorder (merge_subtrees t.impl.root (.node .nil value 1 .nil)) = _
    rw [hspec.1]
    rfl
  have hlen : t.size = (inorder t.impl.root).length := by
    show ssz t.impl.root = _
    rw [ssz_eq_realSize _ h, realSize_eq_length_inorder]
  refine ⟨hio, ?_, ?_⟩
  · show ssz (merge_subtrees t.impl.root (.node .nil value 1 .nil)) = ssz t.impl.root + 1
    rw [ssz_eq_realSize _ hspec.2, ssz_eq_realSize _ h,
      realSize_eq_length_inorder, realSize_eq_length_inorder, hspec.1]
    simp [inorder]
  · rw [hio, hlen, List.getElem?_append_right (le_refl _)]
    simp

/-- C10 witness: appending `7` to the one-element sequence `[5]`. -/
theorem claim_C10_implicit_insert_appends_witness :
    sizeOK (implicit_splay_tree.mk (⟨.node .nil (5 : Int) 1 .nil⟩ : splay_tree_base Int)).impl.root = true ∧
      (inorder ((implicit_splay_tree.mk (⟨.node .nil (5 : Int) 1 .nil⟩ : splay_tree_base Int)).insert 7).2.impl.root =
          inorder (implicit_splay_tree.mk (⟨.node .nil (5 : Int) 1 .nil⟩ : splay_tree_base Int)).impl.root ++ [7] ∧
        ((implicit_splay_tree.mk (⟨.node .nil (5 : Int) 1 .nil⟩ : splay_tree_base Int)).insert 7).2.size =
          (implicit_splay_tree.mk (⟨.node .nil (5 : Int) 1 .nil⟩ : splay_tree_base Int)).size + 1 ∧
        (inorder ((implicit_splay_tree.mk (⟨.node .nil (5 : Int) 1 .nil⟩ : splay_tree_base Int)).insert 7).2.impl.root)[(implicit_splay_tree.mk (⟨.node .nil (5 : Int) 1 .nil⟩ : splay_tree_base Int)).size]? =
          some 7) :=
  ⟨by decide, claim_C10_implicit_insert_appends
    (implicit_splay_tree.mk ⟨.node .nil 5 1 .nil⟩) 7 (by decide)⟩

/-- C7: on a size-consistent tree of size `n`, `order_statistic(i)` for
`i < n` returns the node of in-order rank `i` (its value is position `i` of
the in-order sequence, so ranging `i` over `[0, n)` enumerates the values in
order), splayed to the root with the in-order sequence unchanged; for
`i ≥ n` it returns absent and the tree is returned entirely unchanged — the
out-of-range test happens before any descent or splay. -/
theorem claim_C7_order_statistic {V : Type} (tree : splay_tree_base V) (n : Nat)
    (hsz : sizeOK tree.root = true) :
    (n < get_size_tree tree →
      ∃ m, order_statistic_tree tree n = (some m, ⟨m.toTree⟩) ∧
        (inorder tree.root)[n]? = some m.v ∧
        inorder m.toTree = inorder tree.root) ∧
      (get_size_tree tree ≤ n → order_statistic_tree tree n = (none, tree)) := by
  constructor
  · intro hn
    rw [get_size_tree] at hn
    cases hroot : tree.root with
    | nil =>
      rw [hroot] at hn
      simp [ssz] at hn
    | node a b c d =>
      have hszr : sizeOK (STree.node a b c d) = true := hroot ▸ hsz
      rw [hroot] at hn
      have hreal : n < realSize (.node a b c d) := by
        rw [← ssz_eq_realSize _ hszr]
        exact hn
      obtain ⟨loc, hloc, hval⟩ :=
        order_statistic_go_rank (.node a b c d) n [] hszr hreal
      have hsub : order_statistic_subtree (STree.node a b c d) n = some loc := by
        rw [order_statistic_subtree,
          if_neg (by simp only [ssz] at hn; omega)]
        exact hloc
      have hgood := order_statistic_subtree_goodLoc (STree.node a b c d) n loc hszr hsub
      obtain ⟨hv, -, -⟩ := splay_node_spec loc.1 loc.2
      refine ⟨splay_node loc.1 loc.2, ?_, ?_, splay_inorder_of_goodLoc hgood⟩
      · rw [order_statistic_tree.eq_def, hroot, hsub]
      · rw [hv]
        exact hval
  · intro hn
    cases hroot : tree.root with
    | nil =>
      have hnone : order_statistic_subtree tree.root n = none := by
        rw [hroot]
        rfl
      rw [order_statistic_tree.eq_def, hnone]
    | node a b c d =>
      have hcond : c ≤ n := by
        rw [get_size_tree, hroot] at hn
        exact hn
      have hnone : order_statistic_subtree tree.root n = none := by
        rw [hroot, order_statistic_subtree, if_pos hcond]
      rw [order_statistic_tree.eq_def, hnone]

/-- C7 witness: rank queries on the two-node tree holding `1` and `2`. -/
theorem claim_C7_order_statistic_witness :
    sizeOK (⟨.node (.node .nil (1 : Int) 1 .nil) 2 2 .nil⟩ : splay_tree_base Int).root = true ∧
      ((0 < get_size_tree (⟨.node (.node .nil (1 : Int) 1 .nil) 2 2 .nil⟩ : splay_tree_base Int) →
        ∃ m, order_statistic_tree (⟨.node (.node .nil (1 : Int) 1 .nil) 2 2 .nil⟩ : splay_tree_base Int) 0 =
            (some m, ⟨m.toTree⟩) ∧
          (inorder (⟨.node (.node .nil (1 : Int) 1 .nil) 2 2 .nil⟩ : splay_tree_base Int).root)[0]? =
            some m.v ∧
          inorder m.toTree =
            inorder (⟨.node (.node .nil (1 : Int) 1 .nil) 2 2 .nil⟩ : splay_tree_base Int).root) ∧
      (get_size_tree (⟨.node (.node .nil (1 : Int) 1 .nil) 2 2 .nil⟩ : splay_tree_base Int) ≤ 0 →
        order_statistic_tree (⟨.node (.node .nil (1 : Int) 1 .nil) 2 2 .nil⟩ : splay_tree_base Int) 0 =
          (none, ⟨.node (.node .nil (1 : Int) 1 .nil) 2 2 .nil⟩))) :=
  ⟨by decide,
    claim_C7_order_statistic ⟨.node (.node .nil 1 1 .nil) 2 2 .nil⟩ 0 (by decide)⟩

/-- C6: on a size-consistent, key-ordered tree, `find(key)` (the shared
`find_tree` algorithm, also the body of `splay_tree::find`) returns a node
whose extracted key compares equal to `key` — neither strictly less nor
strictly greater, i.e. equal under the linear order — exactly when such a node
exists, and reports absent otherwise; the in-order (hence multiset of) stored
values is unchanged; and whenever the tree is non-empty the binary-search
descent yields a last-visited candidate node and the resulting tree is
exactly that candidate splayed to the root — also on a miss. -/
theorem claim_C6_find_spec {K V : Type} [LinearOrder K] (ext : V → K)
    (tree : splay_tree_base V) (key : K)
    (hsz : sizeOK tree.root = true) (hord : Ordered ext tree.root) :
    inorder (find_tree (ltCmp K) ext tree key).2.root = inorder tree.root ∧
      (∀ m, (find_tree (ltCmp K) ext tree key).1 = some m →
        ext m.v = key ∧ m.v ∈ inorder tree.root ∧
        (find_tree (ltCmp K) ext tree key).2.root = m.toTree) ∧
      ((∃ w ∈ inorder tree.root, ext w = key) →
        (find_tree (ltCmp K) ext tree key).1 ≠ none) ∧
      (∀ loc, find_candidate_subtree (ltCmp K) ext key tree.root [] = some loc →
        (find_tree (ltCmp K) ext tree key).2.root = (splay_node loc.1 loc.2).toTree) ∧
      (tree.root ≠ .nil →
        ∃ loc, find_candidate_subtree (ltCmp K) ext key tree.root [] = some loc) := by
  cases hcand : find_candidate_subtree (ltCmp K) ext key tree.root [] with
  | none =>
    have hnil : tree.root = .nil := by
      by_contra hne
      obtain ⟨loc, hloc⟩ := find_candidate_isSome (ltCmp K) ext key tree.root [] hne
      rw [hcand] at hloc
      cases hloc
    refine ⟨by rw [find_tree.eq_def, hcand], ?_, ?_, ?_, ?_⟩
    · intro m hm
      rw [find_tree.eq_def, hcand] at hm
      cases hm
    · rintro ⟨w, hw, -⟩
      rw [hnil] at hw
      simp [inorder] at hw
    · intro loc hloc
      cases hloc
    · intro hne
      exact absurd hnil hne
  | some loc =>
    have hgood : goodLoc tree.root loc :=
      find_candidate_goodLoc (ltCmp K) ext key tree.root tree.root [] hsz rfl rfl
        loc hcand
    have hio := splay_inorder_of_goodLoc hgood
    obtain ⟨hv, -, -⟩ := splay_node_spec loc.1 loc.2
    have hsnd : (find_tree (ltCmp K) ext tree key).2.root =
        (splay_node loc.1 loc.2).toTree := by
      rw [find_tree.eq_def, hcand]
      dsimp only
      by_cases hc : (ltCmp K (ext (splay_node loc.1 loc.2).v) key ||
          ltCmp K key (ext (splay_node loc.1 loc.2).v)) = true
      · rw [if_pos hc]
      · rw [if_neg hc]
    refine ⟨by rw [hsnd]; exact hio, ?_, ?_, ?_, fun _ => ⟨loc, rfl⟩⟩
    · intro m hm
      rw [find_tree.eq_def, hcand] at hm
      dsimp only at hm
      by_cases hc : (ltCmp K (ext (splay_node loc.1 loc.2).v) key ||
          ltCmp K key (ext (splay_node loc.1 loc.2).v)) = true
      · rw [if_pos hc] at hm
        cases hm
      · rw [if_neg hc] at hm
        cases hm
        rw [Bool.or_eq_true] at hc
        have h1 : ¬(ext (splay_node loc.1 loc.2).v < key) := by
          intro hlt
          exact hc (Or.inl (by simp [ltCmp, hlt]))
        have h2 : ¬(key < ext (splay_node loc.1 loc.2).v) := by
          intro hlt
          exact hc (Or.inr (by simp [ltCmp, hlt]))
        refine ⟨le_antisymm (not_lt.mp h2) (not_lt.mp h1), ?_, hsnd⟩
        rw [hv]
        exact mem_inorder_of_goodLoc hgood
    · rintro ⟨w, hw, hkey⟩
      obtain ⟨loc2, hloc2, hkey2⟩ :=
        find_candidate_hit ext key tree.root [] w hord hw hkey
      rw [hcand] at hloc2
      cases hloc2
      rw [find_tree.eq_def, hcand]
      dsimp only
      have hveq : ext (splay_node loc.1 loc.2).v = key := by
        rw [hv]
        exact hkey2
      rw [if_neg (by simp [ltCmp, hveq])]
      simp
    · intro loc2 hloc2
      cases hloc2
      exact hsnd

/-- C6 witness: a hit (`key = 1`) on the ordered two-node tree `{1, 2}`. -/
theorem claim_C6_find_spec_witness :
    (sizeOK (⟨.node (.node .nil (1 : Int) 1 .nil) 2 2 .nil⟩ : splay_tree_base Int).root = true ∧
      Ordered (fun v => v)
        (⟨.node (.node .nil (1 : Int) 1 .nil) 2 2 .nil⟩ : splay_tree_base Int).root) ∧
      (inorder (find_tree (ltCmp Int) (fun v => v)
          (⟨.node (.node .nil (1 : Int) 1 .nil) 2 2 .nil⟩ : splay_tree_base Int) 1).2.root =
        inorder (⟨.node (.node .nil (1 : Int) 1 .nil) 2 2 .nil⟩ : splay_tree_base Int).root ∧
      (∀ m, (find_tree (ltCmp Int) (fun v => v)
          (⟨.node (.node .nil (1 : Int) 1 .nil) 2 2 .nil⟩ : splay_tree_base Int) 1).1 = some m →
        (fun v => v) m.v = 1 ∧
          m.v ∈ inorder (⟨.node (.node .nil (1 : Int) 1 .nil) 2 2 .nil⟩ : splay_tree_base Int).root ∧
          (find_tree (ltCmp Int) (fun v => v)
            (⟨.node (.node .nil (1 : Int) 1 .nil) 2 2 .nil⟩ : splay_tree_base Int) 1).2.root = m.toTree) ∧
      ((∃ w ∈ inorder (⟨.node (.node .nil (1 : Int) 1 .nil) 2 2 .nil⟩ : splay_tree_base Int).root,
          (fun v => v) w = 1) →
        (find_tree (ltCmp Int) (fun v => v)
          (⟨.node (.node .nil (1 : Int) 1 .nil) 2 2 .nil⟩ : splay_tree_base Int) 1).1 ≠ none) ∧
      (∀ loc, find_candidate_subtree (ltCmp Int) (fun v => v) 1
          (⟨.node (.node .nil (1 : Int) 1 .nil) 2 2 .nil⟩ : splay_tree_base Int).root [] = some loc →
        (find_tree (ltCmp Int) (fun v => v)
          (⟨.node (.node .nil (1 : Int) 1 .nil) 2 2 .nil⟩ : splay_tree_base Int) 1).2.root =
          (splay_node loc.1 loc.2).toTree) ∧
      ((⟨.node (.node .nil (1 : Int) 1 .nil) 2 2 .nil⟩ : splay_tree_base Int).root ≠ .nil →
        ∃ loc, find_candidate_subtree (ltCmp Int) (fun v => v) 1
          (⟨.node (.node .nil (1 : Int) 1 .nil) 2 2 .nil⟩ : splay_tree_base Int).root [] = some loc)) :=
  ⟨⟨by decide, by decide⟩,
    claim_C6_find_spec (fun v => v) ⟨.node (.node .nil 1 1 .nil) 2 2 .nil⟩ 1
      (by decide) (by decide)⟩

/-- C3 counterexample: the claim says the original container ends up
referencing exactly the left part of every split.  For the keyed
`splay_tree::split_lower` on the one-node tree `{1}` with pivot key `2`, the
value `1` is sent to the left side (third conjunct: the whole tree compares
below the pivot, second conjunct: the left output container indeed receives
`[1]`), yet after the call the original container's contents are empty (first
conjunct) — the member nulls `this->root` and deposits the left part in the
`left_tree` out-parameter instead. -/
theorem claim_C3_counterexample :
    inorder ((splay_tree.split_lower
        (⟨.node .nil 1 1 .nil, fun v => v, ltCmp Int⟩ : splay_tree Int Int) 2
        ⟨.nil, fun v => v, ltCmp Int⟩ ⟨.nil, fun v => v, ltCmp Int⟩).1).root = [] ∧
      inorder ((splay_tree.split_lower
        (⟨.node .nil 1 1 .nil, fun v => v, ltCmp Int⟩ : splay_tree Int Int) 2
        ⟨.nil, fun v => v, ltCmp Int⟩ ⟨.nil, fun v => v, ltCmp Int⟩).2.1).root = [1] ∧
      inorder (⟨.node .nil 1 1 .nil, fun v => v, ltCmp Int⟩ : splay_tree Int Int).root = [1] := by
  refine ⟨rfl, ?_, rfl⟩
  decide

/-- C3 (amended): every split produces a (left, right) partition of the input
tree's in-order contents at the pivot.  For the implicit node splits the
original container keeps the left part and the right part is returned:
`split_left` keeps the node and everything before it, `split_right` keeps
only what is strictly before the node.  For the keyed `split_lower` /
`split_upper` the original container is emptied (`this->root = nullptr`) and
the two parts are deposited in the two output containers: `split_lower` sends
the keys `< key` to the left output and the rest right, `split_upper` sends
the keys `≤ key` left and the rest right. -/
theorem claim_C3_split_partition {K V : Type} [LinearOrder K]
    (t : implicit_splay_tree V) (loc : NodeT V × List (Frame V))
    (hloc : goodLoc t.impl.root loc)
    (kt left0 right0 : splay_tree K V) (key : K)
    (hcmp : kt.comparator = ltCmp K)
    (hsz : sizeOK kt.root = true) (hord : Ordered kt.extractor kt.root) :
    (inorder (t.split_left (some loc)).1.impl.root =
        ctxL loc.2 ++ inorder loc.1.l ++ [loc.1.v] ∧
      inorder (t.split_left (some loc)).2.impl.root =
        inorder loc.1.r ++ ctxR loc.2 ∧
      inorder (t.split_left (some loc)).1.impl.root ++
        inorder (t.split_left (some loc)).2.impl.root = inorder t.impl.root) ∧
      (inorder (t.split_right (some loc)).1.impl.root =
          ctxL loc.2 ++ inorder loc.1.l ∧
        inorder (t.split_right (some loc)).2.impl.root =
          loc.1.v :: (inorder loc.1.r ++ ctxR loc.2)) ∧
      ((kt.split_lower key left0 right0).1.root = .nil ∧
        (∀ x ∈ inorder (kt.split_lower key left0 right0).2.1.root,
          kt.extractor x < key) ∧
        (∀ x ∈ inorder (kt.split_lower key left0 right0).2.2.root,
          ¬(kt.extractor x < key)) ∧
        inorder (kt.split_lower key left0 right0).2.1.root ++
          inorder (kt.split_lower key left0 right0).2.2.root = inorder kt.root) ∧
      ((kt.split_upper key left0 right0).1.root = .nil ∧
        (∀ x ∈ inorder (kt.split_upper key left0 right0).2.1.root,
          ¬(key < kt.extractor x)) ∧
        (∀ x ∈ inorder (kt.split_upper key left0 right0).2.2.root,
          key < kt.extractor x) ∧
        inorder (kt.split_upper key left0 right0).2.1.root ++
          inorder (kt.split_upper key left0 right0).2.2.root = inorder kt.root) := by
  have hsl := split_left_tree_spec t.impl loc hloc
  have hsr := split_right_tree_spec t.impl loc hloc
  have hlow := split_lower_impl_spec kt.extractor key kt.root hsz hord
  have hup := split_upper_impl_spec kt.extractor key kt.root hsz hord
  rw [← hcmp] at hlow hup
  refine ⟨⟨?_, ?_, ?_⟩, ⟨?_, ?_⟩, ⟨rfl, ?_, ?_, ?_⟩, ⟨rfl, ?_, ?_, ?_⟩⟩
  · exact hsl.1
  · exact hsl.2.1
  · exact hsl.2.2.1
  · exact hsr.1
  · exact hsr.2.1
  · exact hlow.2.1
  · exact hlow.2.2.1
  · exact hlow.1
  · exact hup.2.1
  · exact hup.2.2.1
  · exact hup.1

/-- C3 witness: splitting the one-element sequence `[5]` at its own (root)
node, and splitting the keyed tree `{1}` at pivot key `2`. -/
theorem claim_C3_split_partition_witness :
    (goodLoc (⟨(⟨.node .nil (5 : Int) 1 .nil⟩ : splay_tree_base Int)⟩ :
        implicit_splay_tree Int).impl.root
        ((⟨.nil, (5 : Int), 1, .nil⟩ : NodeT Int), ([] : List (Frame Int))) ∧
      (⟨.node .nil (1 : Int) 1 .nil, id, ltCmp Int⟩ : splay_tree Int Int).comparator = ltCmp Int ∧
      sizeOK (⟨.node .nil (1 : Int) 1 .nil, id, ltCmp Int⟩ : splay_tree Int Int).root = true ∧
      Ordered (⟨.node .nil (1 : Int) 1 .nil, id, ltCmp Int⟩ : splay_tree Int Int).extractor
        (⟨.node .nil (1 : Int) 1 .nil, id, ltCmp Int⟩ : splay_tree Int Int).root) ∧
      ((inorder ((⟨(⟨.node .nil (5 : Int) 1 .nil⟩ : splay_tree_base Int)⟩ :
          implicit_splay_tree Int).split_left
            (some (⟨.nil, 5, 1, .nil⟩, []))).1.impl.root =
          ctxL ([] : List (Frame Int)) ++ inorder (STree.nil : STree Int) ++ [5] ∧
        inorder ((⟨(⟨.node .nil (5 : Int) 1 .nil⟩ : splay_tree_base Int)⟩ :
          implicit_splay_tree Int).split_left
            (some (⟨.nil, 5, 1, .nil⟩, []))).2.impl.root =
          inorder (STree.nil : STree Int) ++ ctxR ([] : List (Frame Int)) ∧
        inorder ((⟨(⟨.node .nil (5 : Int) 1 .nil⟩ : splay_tree_base Int)⟩ :
          implicit_splay_tree Int).split_left
            (some (⟨.nil, 5, 1, .nil⟩, []))).1.impl.root ++
          inorder ((⟨(⟨.node .nil (5 : Int) 1 .nil⟩ : splay_tree_base Int)⟩ :
            implicit_splay_tree Int).split_left
              (some (⟨.nil, 5, 1, .nil⟩, []))).2.impl.root =
          inorder (⟨(⟨.node .nil (5 : Int) 1 .nil⟩ : splay_tree_base Int)⟩ :
            implicit_splay_tree Int).impl.root) ∧
      (inorder ((⟨(⟨.node .nil (5 : Int) 1 .nil⟩ : splay_tree_base Int)⟩ :
          implicit_splay_tree Int).split_right
            (some (⟨.nil, 5, 1, .nil⟩, []))).1.impl.root =
          ctxL ([] : List (Frame Int)) ++ inorder (STree.nil : STree Int) ∧
        inorder ((⟨(⟨.node .nil (5 : Int) 1 .nil⟩ : splay_tree_base Int)⟩ :
          implicit_splay_tree Int).split_right
            (some (⟨.nil, 5, 1, .nil⟩, []))).2.impl.root =
          5 :: (inorder (STree.nil : STree Int) ++ ctxR ([] : List (Frame Int)))) ∧
      (((⟨.node .nil (1 : Int) 1 .nil, id, ltCmp Int⟩ : splay_tree Int Int).split_lower 2
          ⟨.nil, id, ltCmp Int⟩ ⟨.nil, id, ltCmp Int⟩).1.root = .nil ∧
        (∀ x ∈ inorder ((⟨.node .nil (1 : Int) 1 .nil, id, ltCmp Int⟩ :
            splay_tree Int Int).split_lower 2
            ⟨.nil, id, ltCmp Int⟩ ⟨.nil, id, ltCmp Int⟩).2.1.root,
          (⟨.node .nil (1 : Int) 1 .nil, id, ltCmp Int⟩ :
            splay_tree Int Int).extractor x < 2) ∧
        (∀ x ∈ inorder ((⟨.node .nil (1 : Int) 1 .nil, id, ltCmp Int⟩ :
            splay_tree Int Int).split_lower 2
            ⟨.nil, id, ltCmp Int⟩ ⟨.nil, id, ltCmp Int⟩).2.2.root,
          ¬((⟨.node .nil (1 : Int) 1 .nil, id, ltCmp Int⟩ :
            splay_tree Int Int).extractor x < 2)) ∧
        inorder ((⟨.node .nil (1 : Int) 1 .nil, id, ltCmp Int⟩ :
            splay_tree Int Int).split_lower 2
            ⟨.nil, id, ltCmp Int⟩ ⟨.nil, id, ltCmp Int⟩).2.1.root ++
          inorder ((⟨.node .nil (1 : Int) 1 .nil, id, ltCmp Int⟩ :
            splay_tree Int Int).split_lower 2
            ⟨.nil, id, ltCmp Int⟩ ⟨.nil, id, ltCmp Int⟩).2.2.root =
          inorder (⟨.node .nil (1 : Int) 1 .nil, id, ltCmp Int⟩ :
            splay_tree Int Int).root) ∧
      (((⟨.node .nil (1 : Int) 1 .nil, id, ltCmp Int⟩ : splay_tree Int Int).split_upper 2
          ⟨.nil, id, ltCmp Int⟩ ⟨.nil, id, ltCmp Int⟩).1.root = .nil ∧
        (∀ x ∈ inorder ((⟨.node .nil (1 : Int) 1 .nil, id, ltCmp Int⟩ :
            splay_tree Int Int).split_upper 2
            ⟨.nil, id, ltCmp Int⟩ ⟨.nil, id, ltCmp Int⟩).2.1.root,
          ¬(2 < (⟨.node .nil (1 : Int) 1 .nil, id, ltCmp Int⟩ :
            splay_tree Int Int).extractor x)) ∧
        (∀ x ∈ inorder ((⟨.node .nil (1 : Int) 1 .nil, id, ltCmp Int⟩ :
            splay_tree Int Int).split_upper 2
            ⟨.nil, id, ltCmp Int⟩ ⟨.nil, id, ltCmp Int⟩).2.2.root,
          2 < (⟨.node .nil (1 : Int) 1 .nil, id, ltCmp Int⟩ :
            splay_tree Int Int).extractor x) ∧
        inorder ((⟨.node .nil (1 : Int) 1 .nil, id, ltCmp Int⟩ :
            splay_tree Int Int).split_upper 2
            ⟨.nil, id, ltCmp Int⟩ ⟨.nil, id, ltCmp Int⟩).2.1.root ++
          inorder ((⟨.node .nil (1 : Int) 1 .nil, id, ltCmp Int⟩ :
            splay_tree Int Int).split_upper 2
            ⟨.nil, id, ltCmp Int⟩ ⟨.nil, id, ltCmp Int⟩).2.2.root =
          inorder (⟨.node .nil (1 : Int) 1 .nil, id, ltCmp Int⟩ :
            splay_tree Int Int).root)) :=
  ⟨⟨⟨by decide, rfl, by decide⟩, rfl, by decide, by decide⟩,
    claim_C3_split_partition ⟨⟨.node .nil 5 1 .nil⟩⟩ (⟨.nil, 5, 1, .nil⟩, [])
      ⟨by decide, rfl, by decide⟩ ⟨.node .nil 1 1 .nil, id, ltCmp Int⟩
      ⟨.nil, id, ltCmp Int⟩ ⟨.nil, id, ltCmp Int⟩ 2 rfl (by decide) (by decide)⟩

end SplayVerify
